import Mathlib

/-!
Verification of the `spara` package (concurrent index mapping with early
cancellation) against its specification.

The Go source (`spara.go`) is embedded shallowly:

* The sequential validation prefix of `RunWithContext` (lines 62-89) becomes
  the pure function `runWithContextGo`, which either returns early
  (`SetupResult.early`) or hands a fully initialised shared state
  (`SetupResult.spawn`) to the concurrent phase.
* The concurrent phase (the worker goroutines, the `kill` closure, the
  parent-watcher goroutine and the final resolution after `wg.Wait`,
  lines 91-171) becomes a labelled transition system: `Config` is the shared
  state, `Label` selects which thread acts, and `step` performs one atomic
  action of that thread.  A schedule (`List Label`) resolves the
  nondeterminism of the Go scheduler; theorems quantify over all schedules.
* Machine integers: the shared cursor is a Go `int32`;`wrap32` performs the
  two's-complement wrap-around of 32-bit signed addition/truncation
  explicitly on `Int`.  `workers`/`iterations` are Go `int`s, modelled as
  unbounded `Int` (no claim depends on 64-bit overflow).
* `ctx.Err()` of the derived `context.WithCancel` context is `ctxErr`:
  `context.Canceled` once `cancel()` was called, otherwise the parent's
  termination error once the parent is done.  It is only ever read on the
  `killOnce = 2` path, where `cancel()` has not yet run, so the priority
  order between the two branches is irrelevant to every theorem.
* The fields `invoked`, `retired`, `failed` and `settledBy` of `Config` are
  ghost observation logs (which indices the mapping function was invoked
  with, which claimed values made a worker exit, which invocations returned
  errors, and which event won the exactly-once `killOnce` transition); they
  influence no branch of `step`.

A mapping function is modelled as `Bool → Int → Option Err`: it receives the
index and whether the derived context was already cancelled when the call
ran (the only information the real function can extract from its context
argument that is visible to these claims), and returns `none` for success.
-/

/-- Error values: the four sentinel errors declared in `spara.go`,
`context.Canceled`, and arbitrary caller-supplied errors. -/
inductive Err where
  | invalidWorkers
  | invalidIterations
  | nilMappingFunction
  | nilContext
  | canceled
  | user (n : Nat)
deriving DecidableEq

/-- A mapping function as passed to `RunWithContext`: given whether the
derived context was observed cancelled and the index, return `none`
(success) or an error. -/
abbrev MFn := Bool → Int → Option Err

/-- Two's-complement wrap of an integer into the signed 32-bit range;
this is both Go's `int32(x)` truncation and the overflow behaviour of
`atomic.AddInt32`. -/
def wrap32 (x : Int) : Int := (x + 2 ^ 31) % 2 ^ 32 - 2 ^ 31

/-- The parent `context.Context` as far as `RunWithContext` can observe it:
`background` has `Done() == nil` (can never complete); `pending b e` has a
real `Done` channel that is not yet closed and will (`b = true`) or will
never (`b = false`) close during the run, with termination error `e`;
`alreadyDone e` is already completed with termination error `e` when
`RunWithContext` is called. -/
inductive ParentCtx where
  | background
  | pending (canComplete : Bool) (e : Err)
  | alreadyDone (e : Err)
deriving DecidableEq

/-- Status of one worker goroutine in the loop
`for j := start; j < iterations; j = nextIndex()`:
`run j` — about to test `j < iterations` (and invoke `fn`);
`next` — about to call `nextIndex()`;
`done` — the goroutine has returned (`wg.Done`). -/
inductive WStatus where
  | run (j : Int)
  | next
  | done
deriving DecidableEq

/-- Ghost record of which event won the exactly-once `killOnce` transition:
a worker whose invocation of index `j` returned error `e`, or the
parent-watcher goroutine. -/
inductive Cause where
  | localFail (j : Int) (e : Err)
  | external
deriving DecidableEq

/-- Scheduler choice: which thread performs its next atomic action.
`work i` / `claim i` — worker `i` performs its loop-body test+invocation /
its `nextIndex()` call; `pdone` — the parent context completes;
`watch` — the watcher goroutine wakes on `ctx.Done()` and runs its body;
`resolve` — the orchestrator, unblocked from `wg.Wait()`, resolves the
final result. -/
inductive Label where
  | work (i : Nat)
  | claim (i : Nat)
  | pdone
  | watch
  | resolve
deriving DecidableEq

/-- The shared state of one run of `RunWithContext` after the workers are
spawned. `cursor` is the `int32` cursor `index`; `killOnce` and `firsterr`
are the variables of the same names; `internalCancel` records that
`cancel()` was called; `parentDone` that the parent context has completed;
`watcherFired` that the watcher goroutine has executed its body.
`invoked`, `retired`, `failed`, `settledBy` are ghost logs; `result` is
`some r` once the call has returned `r` (`none` = the Go `nil` error). -/
structure Config where
  cursor : Int
  killOnce : Nat
  firsterr : Option Err
  internalCancel : Bool
  parentDone : Bool
  watcherFired : Bool
  workers : List WStatus
  invoked : List Int
  retired : List Int
  failed : List (Int × Err)
  settledBy : Option Cause
  result : Option (Option Err)
deriving DecidableEq

/-- The per-run immutable data: `iterations`, the mapping function, and the
parent context. -/
structure Params where
  iterations : Int
  fn : MFn
  parent : ParentCtx

/-- Whether `parent.Done() != nil`, i.e. whether the watcher goroutine is
spawned (source lines 128-135). -/
def hasWatcher (P : Params) : Bool :=
  match P.parent with
  | ParentCtx.background => false
  | _ => true

/-- The parent's termination error (`parent.Err()` once done).
`background` never completes, so that branch is unreachable. -/
def parentTermErr (P : Params) : Err :=
  match P.parent with
  | ParentCtx.background => Err.canceled
  | ParentCtx.pending _ e => e
  | ParentCtx.alreadyDone e => e

/-- `ctx.Err()` of the `context.WithCancel(parent)` context: `canceled`
after `cancel()`, else the parent's error after the parent completed. -/
def ctxErr (P : Params) (s : Config) : Option Err :=
  if s.internalCancel then some Err.canceled
  else if s.parentDone then some (parentTermErr P) else none

/-- The `kill(err)` closure (source lines 110-119): on the first call it
transitions `killOnce` from 0 to 1, forces cursor exhaustion
(`stopIteration` stores `int32(iterations)`), cancels the derived context,
and records the error; later calls have no effect.  The calling worker then
returns.  `failed`/`settledBy` are ghost logs. -/
def killStep (P : Params) (s : Config) (i : Nat) (j : Int) (e : Err) : Config :=
  if s.killOnce = 0 then
    { s with killOnce := 1, cursor := wrap32 P.iterations, internalCancel := true,
             firsterr := some e, settledBy := some (Cause.localFail j e),
             failed := s.failed ++ [(j, e)],
             workers := s.workers.set i WStatus.done }
  else
    { s with failed := s.failed ++ [(j, e)],
             workers := s.workers.set i WStatus.done }

/-- One iteration of worker `i`'s loop body at index `j` (source lines
142-147): if `j < iterations`, invoke `fn` (passing whether the derived
context is done) and either move on to `nextIndex` or `kill(err)` and exit;
otherwise exit the loop. -/
def workStep (P : Params) (s : Config) (i : Nat) (j : Int) : Config :=
  if j < P.iterations then
    match P.fn (s.internalCancel || s.parentDone) j with
    | none =>
      { s with invoked := s.invoked ++ [j], workers := s.workers.set i WStatus.next }
    | some e =>
      killStep P { s with invoked := s.invoked ++ [j] } i j e
  else
    { s with retired := s.retired ++ [j], workers := s.workers.set i WStatus.done }

/-- All worker goroutines have returned, i.e. `wg.Wait()` is unblocked. -/
def allDone (ws : List WStatus) : Bool := ws.all (fun st => st == WStatus.done)

/-- The result resolution after `wg.Wait()` (source lines 152-170): return
`firsterr` if set; return `nil` if the parent can never complete; otherwise
attempt the final `killOnce` 0 → 3 transition, returning `nil` on success
and `ctx.Err()` on failure. The read of `firsterr` is safe (only the
`killOnce` 0 → 1 winner writes it, before `wg.Done`). -/
def resolveStep (P : Params) (s : Config) : Config :=
  if s.result = none ∧ allDone s.workers = true then
    match s.firsterr with
    | some e => { s with result := some (some e) }
    | none =>
      if hasWatcher P = false then { s with result := some none }
      else if s.killOnce = 0 then { s with killOnce := 3, result := some none }
      else { s with result := some (ctxErr P s) }
  else s

/-- One atomic action of the thread selected by the label.  A label whose
thread is not at the corresponding program point is a no-op (that thread is
simply not scheduled). -/
def step (P : Params) (s : Config) : Label → Config
  | Label.work i =>
    match s.workers.get? i with
    | some (WStatus.run j) => workStep P s i j
    | _ => s
  | Label.claim i =>
    match s.workers.get? i with
    | some WStatus.next =>
      { s with cursor := wrap32 (s.cursor + 1),
               workers := s.workers.set i (WStatus.run (wrap32 (s.cursor + 1))) }
    | _ => s
  | Label.pdone =>
    match P.parent with
    | ParentCtx.pending true _ => { s with parentDone := true }
    | _ => s
  | Label.watch =>
    if hasWatcher P = true ∧ (s.internalCancel = true ∨ s.parentDone = true)
        ∧ s.watcherFired = false then
      if s.killOnce = 0 then
        { s with watcherFired := true, killOnce := 2, cursor := wrap32 P.iterations,
                 settledBy := some Cause.external }
      else { s with watcherFired := true }
    else s
  | Label.resolve => resolveStep P s

/-- Execute a schedule from a state. -/
def sched_run (P : Params) (s : Config) : List Label → Config
  | [] => s
  | L :: rest => sched_run P (step P s L) rest

/-- The shared state as initialised by `RunWithContext` right before the
workers are spawned (source lines 94, 137-149), for the clamped worker
count `w`: the cursor holds `int32(workers - 1)` and worker `i` is handed
starting index `i` directly. -/
def initConfig (w : Nat) : Config :=
  { cursor := wrap32 ((w : Int) - 1), killOnce := 0, firsterr := none,
    internalCancel := false, parentDone := false, watcherFired := false,
    workers := (List.range w).map (fun i : Nat => WStatus.run (i : Int)),
    invoked := [], retired := [], failed := [], settledBy := none, result := none }

/-- Outcome of the sequential prefix of `RunWithContext`: an early return
with the given error value, or spawning workers on an initial shared
state. -/
inductive SetupResult where
  | early (r : Option Err)
  | spawn (P : Params) (c : Config)

/-- The sequential prefix of `RunWithContext` (source lines 62-89), in
source order: validate `workers`, `iterations`, `fn`, `parent`; return
`nil` for zero iterations; clamp `workers` to `iterations`; eagerly return
`parent.Err()` if the parent is already done; otherwise spawn. -/
def runWithContextGo (parent : Option ParentCtx) (workers iterations : Int)
    (fn : Option MFn) : SetupResult :=
  if workers ≤ 0 then SetupResult.early (some Err.invalidWorkers)
  else if iterations < 0 then SetupResult.early (some Err.invalidIterations)
  else
    match fn with
    | none => SetupResult.early (some Err.nilMappingFunction)
    | some f =>
      match parent with
      | none => SetupResult.early (some Err.nilContext)
      | some p =>
        if iterations = 0 then SetupResult.early none
        else
          match p with
          | ParentCtx.alreadyDone e => SetupResult.early (some e)
          | _ =>
            SetupResult.spawn ⟨iterations, f, p⟩
              (initConfig (if workers > iterations then iterations else workers).toNat)

/-- `Run` (source lines 31-37): reject a nil mapping function, then wrap it
(the wrapper discards the context argument) and delegate to
`RunWithContext(context.Background(), ...)`. -/
def runGo (workers iterations : Int) (fn : Option (Int → Option Err)) : SetupResult :=
  match fn with
  | none => SetupResult.early (some Err.nilMappingFunction)
  | some f =>
    runWithContextGo (some ParentCtx.background) workers iterations
      (some (fun _ j => f j))

/-- The error value the full call returns under a schedule: `some r` means
the call returned `r` (an early return returns before any scheduling). -/
def callResult (o : SetupResult) (sched : List Label) : Option (Option Err) :=
  match o with
  | SetupResult.early r => some r
  | SetupResult.spawn P c => (sched_run P c sched).result

/-- The indices the mapping function has been invoked with, in invocation
order, under a schedule. -/
def callInvoked (o : SetupResult) (sched : List Label) : List Int :=
  match o with
  | SetupResult.early _ => []
  | SetupResult.spawn P c => (sched_run P c sched).invoked

/-- Whether the watcher goroutine has run its body by the end of the
schedule. -/
def callWatcherFired (o : SetupResult) (sched : List Label) : Bool :=
  match o with
  | SetupResult.early _ => false
  | SetupResult.spawn P c => (sched_run P c sched).watcherFired

/-- The ghost log of failing invocations of the full call (empty on an
early return). -/
def callFailed (o : SetupResult) (sched : List Label) : List (Int × Err) :=
  match o with
  | SetupResult.early _ => []
  | SetupResult.spawn P c => (sched_run P c sched).failed

/-- Which event settled the full call's `killOnce` machine (`none` on an
early return or while still running). -/
def callSettledBy (o : SetupResult) (sched : List Label) : Option Cause :=
  match o with
  | SetupResult.early _ => none
  | SetupResult.spawn P c => (sched_run P c sched).settledBy

/-- The multiset of indices `{0, ..., n-1}` (empty for `n ≤ 0`). -/
def indexRange (n : Int) : Multiset Int :=
  Multiset.map (fun k : Nat => (k : Int)) (Multiset.range n.toNat)

/-- A mapping function all of whose invocations succeed. -/
def AllSuccess (f : MFn) : Prop := ∀ b j, f b j = none

/-- The exactly-once dispatch guarantee as a safety property: under every
schedule, no index is ever invoked twice and every invoked index lies in
`[0, iterations)`. -/
def DispatchSafe (P : Params) (c : Config) : Prop :=
  ∀ sched : List Label,
    (sched_run P c sched).invoked.Nodup ∧
      ∀ v ∈ (sched_run P c sched).invoked, 0 ≤ v ∧ v < P.iterations

/-- The parent context completes only at points of the schedule where every
worker goroutine has already returned. -/
def parentAfterUnitsB (P : Params) (c : Config) (sched : List Label) : Bool :=
  (List.range sched.length).all (fun k =>
    if sched.get? k = some Label.pdone
    then allDone (sched_run P c (sched.take k)).workers else true)

/-- The always-succeeding plain mapping function (as passed to `Run`). -/
def allNoneI : Int → Option Err := fun _ => none

/-- The always-succeeding mapping function (as passed to `RunWithContext`). -/
def allNoneF : MFn := fun _ _ => none

/-- A parent context that is not already completed at call time. -/
def isLive : ParentCtx → Bool
  | ParentCtx.alreadyDone _ => false
  | _ => true

/-- A single-worker schedule: `k` rounds of worker 0 invoking its current
index and then claiming the next one. -/
def wcSched : Nat → List Label
  | 0 => []
  | Nat.succ k => Label.work 0 :: Label.claim 0 :: wcSched k

/-- The state reached by a lone all-succeeding worker after `k`
invoke+claim rounds when no claimed value ever reaches `iterations`. -/
def wcState (k : Nat) : Config :=
  { cursor := wrap32 k, killOnce := 0, firsterr := none, internalCancel := false,
    parentDone := false, watcherFired := false,
    workers := [WStatus.run (wrap32 k)],
    invoked := (List.range k).map (fun n : Nat => wrap32 (n : Int)),
    retired := [], failed := [], settledBy := none, result := none }

/-- The pending claimed index of a worker, as a multiset (empty unless the
worker is about to test an index). -/
def pendOf : WStatus → Multiset Int
  | WStatus.run j => {j}
  | _ => 0

/-- All pending claimed indices of the pool. -/
def pendM (ws : List WStatus) : Multiset Int := (ws.map pendOf).sum

/-- Indicator of a finished worker. -/
def doneOf : WStatus → Nat
  | WStatus.done => 1
  | _ => 0

/-- How many workers have finished. -/
def doneCt (ws : List WStatus) : Nat := (ws.map doneOf).sum

/-- Remaining steps a worker can take before finishing (for the
termination measure). -/
def weight : WStatus → Nat
  | WStatus.run _ => 2
  | WStatus.next => 1
  | WStatus.done => 0

/-- Termination measure for an error-free run with pool size `w`:
bounds the number of productive steps left. -/
def mu (P : Params) (w : Nat) (s : Config) : Nat :=
  2 * (P.iterations + (w : Int) - 1 - s.cursor).toNat
    + (s.workers.map weight).sum
    + (if s.result = none then 1 else 0)

/-- The first worker that has not yet finished, with its status. -/
def firstBusy : List WStatus → Option (Nat × WStatus)
  | [] => none
  | st :: rest =>
    if st = WStatus.done then (firstBusy rest).map (fun p => (p.1 + 1, p.2))
    else some (0, st)

/-- A scheduler that always advances the first unfinished worker, then
resolves. -/
def pick (s : Config) : Option Label :=
  if s.result = none then
    match firstBusy s.workers with
    | some (i, WStatus.run _) => some (Label.work i)
    | some (i, WStatus.next) => some (Label.claim i)
    | some (_, WStatus.done) => some Label.resolve
    | none => some Label.resolve
  else none

/-- The schedule produced by running the greedy scheduler for at most
`fuel` steps. -/
def greedySched (P : Params) : Nat → Config → List Label
  | 0, _ => []
  | Nat.succ fuel, s =>
    match pick s with
    | none => []
    | some L => L :: greedySched P fuel (step P s L)

/-- Invariant for a run with an all-succeeding mapping function, a parent
that never completes, pool size `w` and no 32-bit overflow: no
cancellation machinery ever engages, and the handed-out values
`0, ..., cursor` are partitioned into invoked indices, pending indices,
and loop-exiting values (one per finished worker, each `≥ iterations`). -/
structure NoKillInv (P : Params) (w : Nat) (s : Config) : Prop where
  wlen : s.workers.length = w
  ko : s.killOnce = 0
  fe : s.firsterr = none
  ic : s.internalCancel = false
  pd : s.parentDone = false
  clo : (w : Int) - 1 ≤ s.cursor
  part : (s.invoked : Multiset Int) + pendM s.workers + (s.retired : Multiset Int)
    = indexRange (s.cursor + 1)
  invLt : ∀ v ∈ s.invoked, v < P.iterations
  retGe : ∀ v ∈ s.retired, P.iterations ≤ v
  retCt : s.retired.length = doneCt s.workers
  res : ∀ r, s.result = some r → r = none ∧ allDone s.workers = true

/-- Invariant for a run with an all-succeeding mapping function and an
arbitrary parent: no local failure ever settles the run, and a non-`nil`
result can only be the parent's termination error, reported after the
watcher fired. -/
structure ASInv (P : Params) (s : Config) : Prop where
  fe : s.firsterr = none
  ic : s.internalCancel = false
  ko : s.killOnce = 0 ∨ s.killOnce = 2 ∨ s.killOnce = 3
  k2 : s.killOnce = 2 → s.watcherFired = true ∧ s.parentDone = true
  k3 : s.killOnce = 3 → s.result = some none
  res : ∀ r, s.result = some r →
    r = none ∨ (r = some (parentTermErr P) ∧ s.watcherFired = true)

/-- Invariant of the exactly-once `killOnce` state machine for an
arbitrary mapping function: the settling cause determines `firsterr`, the
first failing invocation is the local winner, and the resolved result
reports `firsterr` when it is set. -/
structure KInv (P : Params) (s : Config) : Prop where
  kor : s.killOnce = 0 ∨ s.killOnce = 1 ∨ s.killOnce = 2 ∨ s.killOnce = 3
  k0 : s.killOnce = 0 →
    s.firsterr = none ∧ s.internalCancel = false ∧ s.failed = [] ∧ s.settledBy = none
  k1 : s.killOnce = 1 → ∃ j e, s.settledBy = some (Cause.localFail j e)
  loc : ∀ j e, s.settledBy = some (Cause.localFail j e) →
    s.killOnce = 1 ∧ s.firsterr = some e ∧ s.failed.head? = some (j, e)
  k2 : s.killOnce = 2 →
    s.settledBy = some Cause.external ∧ s.firsterr = none ∧ hasWatcher P = true
  k3 : s.killOnce = 3 → s.firsterr = none ∧ s.result = some none
  resAll : ∀ r, s.result = some r → allDone s.workers = true
  resFe : ∀ r, s.result = some r → ∀ e, s.firsterr = some e → r = some e
  fne : s.failed ≠ [] → s.killOnce = 1 ∨ s.killOnce = 2

/-- Lock-step correspondence between a run whose parent is
`context.Background()` and the same run whose parent has a `Done` channel
that never closes: the states agree except that the latter may have
performed its final `killOnce` 0 → 3 transition and its watcher
bookkeeping. -/
structure SimBgPf (s t : Config) : Prop where
  cur : s.cursor = t.cursor
  fe : s.firsterr = t.firsterr
  ic : s.internalCancel = t.internalCancel
  pdS : s.parentDone = false
  pdT : t.parentDone = false
  ws : s.workers = t.workers
  res : s.result = t.result
  koS : s.killOnce = 0 ∨ s.killOnce = 1
  koT : t.killOnce = s.killOnce ∨
    (t.killOnce = 3 ∧ s.killOnce = 0 ∧ t.result = some none ∧ allDone t.workers = true)
  k1 : s.killOnce = 1 → s.internalCancel = true ∧ ∃ e2, s.firsterr = some e2
  k0 : s.killOnce = 0 → s.firsterr = none ∧ s.internalCancel = false

/-! ### Arithmetic facts about the 32-bit wrap -/

theorem wrap32_lb (x : Int) : -2 ^ 31 ≤ wrap32 x := by
  unfold wrap32
  omega

theorem wrap32_ub (x : Int) : wrap32 x < 2 ^ 31 := by
  unfold wrap32
  omega

theorem wrap32_eq_self {x : Int} (h1 : -2 ^ 31 ≤ x) (h2 : x < 2 ^ 31) : wrap32 x = x := by
  unfold wrap32
  omega

theorem wrap32_add_left (a b : Int) : wrap32 (wrap32 a + b) = wrap32 (a + b) := by
  unfold wrap32
  omega

/-! ### Facts about `indexRange` -/

theorem mem_indexRange {v n : Int} : v ∈ indexRange n ↔ 0 ≤ v ∧ v < n := by
  unfold indexRange
  simp only [Multiset.mem_map, Multiset.mem_range]
  constructor
  · rintro ⟨k, hk, rfl⟩
    omega
  · rintro ⟨h0, hv⟩
    exact ⟨v.toNat, by omega, by omega⟩

theorem indexRange_succ {m : Int} (hm : 0 ≤ m) :
    indexRange (m + 1) = m ::ₘ indexRange m := by
  unfold indexRange
  have h1 : (m + 1).toNat = m.toNat + 1 := by omega
  rw [h1, Multiset.range_succ, Multiset.map_cons]
  congr 1
  omega

theorem indexRange_nodup (n : Int) : (indexRange n).Nodup := by
  unfold indexRange
  exact (Multiset.nodup_range _).map (fun a b h => by exact_mod_cast h)

theorem indexRange_filter (N : Int) (hN : 0 ≤ N) (k : Nat) :
    (indexRange (N + k)).filter (fun v => v < N) = indexRange N ∧
      Multiset.card ((indexRange (N + k)).filter (fun v => N ≤ v)) = k := by
  induction k with
  | zero =>
    constructor
    · push_cast
      rw [add_zero]
      exact Multiset.filter_eq_self.mpr (fun v hv => (mem_indexRange.mp hv).2)
    · push_cast
      rw [add_zero]
      have : (indexRange N).filter (fun v => N ≤ v) = 0 :=
        Multiset.filter_eq_nil.mpr (fun v hv => by
          have := (mem_indexRange.mp hv).2
          omega)
      rw [this]
      rfl
  | succ k ih =>
    have hcast : (N + (k + 1 : Nat)) = (N + k) + 1 := by push_cast; ring
    rw [hcast, indexRange_succ (by positivity)]
    constructor
    · rw [Multiset.filter_cons_of_neg _ (by omega)]
      exact ih.1
    · rw [Multiset.filter_cons_of_pos _ (by omega)]
      simp only [Multiset.card_cons, ih.2]

/-! ### Reductions of the sequential validation prefix -/

theorem callResult_early (r : Option Err) (sched : List Label) :
    callResult (SetupResult.early r) sched = some r := rfl

theorem callInvoked_early (r : Option Err) (sched : List Label) :
    callInvoked (SetupResult.early r) sched = [] := rfl

theorem rwc_invalidWorkers (p : Option ParentCtx) (w i : Int) (fn : Option MFn)
    (hw : w ≤ 0) :
    runWithContextGo p w i fn = SetupResult.early (some Err.invalidWorkers) := by
  unfold runWithContextGo
  rw [if_pos hw]

theorem rwc_invalidIterations (p : Option ParentCtx) (w i : Int) (fn : Option MFn)
    (hw : 0 < w) (hi : i < 0) :
    runWithContextGo p w i fn = SetupResult.early (some Err.invalidIterations) := by
  unfold runWithContextGo
  rw [if_neg (by omega), if_pos hi]

theorem rwc_zeroIterations (p : ParentCtx) (w : Int) (g : MFn) (hw : 0 < w) :
    runWithContextGo (some p) w 0 (some g) = SetupResult.early none := by
  unfold runWithContextGo
  rw [if_neg (by omega : ¬ w ≤ 0), if_neg (by omega : ¬ (0:Int) < 0)]
  rfl

theorem rwc_alreadyDone (e : Err) (w i : Int) (g : MFn) (hw : 0 < w) (hi : 1 ≤ i) :
    runWithContextGo (some (ParentCtx.alreadyDone e)) w i (some g)
      = SetupResult.early (some e) := by
  unfold runWithContextGo
  rw [if_neg (by omega : ¬ w ≤ 0), if_neg (by omega : ¬ i < 0)]
  show (if i = 0 then SetupResult.early none else SetupResult.early (some e))
    = SetupResult.early (some e)
  rw [if_neg (by omega)]

theorem rwc_spawn (p : ParentCtx) (w i : Int) (g : MFn)
    (hw : 0 < w) (hi : 1 ≤ i) (hp : isLive p = true) :
    runWithContextGo (some p) w i (some g) =
      SetupResult.spawn ⟨i, g, p⟩
        (initConfig (if w > i then i else w).toNat) := by
  unfold runWithContextGo
  rw [if_neg (by omega : ¬ w ≤ 0), if_neg (by omega : ¬ i < 0)]
  cases p with
  | background =>
    show (if i = 0 then SetupResult.early none
      else SetupResult.spawn ⟨i, g, ParentCtx.background⟩
        (initConfig (if w > i then i else w).toNat)) = _
    rw [if_neg (by omega)]
  | pending b e =>
    show (if i = 0 then SetupResult.early none
      else SetupResult.spawn ⟨i, g, ParentCtx.pending b e⟩
        (initConfig (if w > i then i else w).toNat)) = _
    rw [if_neg (by omega)]
  | alreadyDone e => simp [isLive] at hp

/-! ### Claim theorems on the validation prefix -/

/-- C3: every call of `Run` or `RunWithContext` (with a mapping function
supplied) with `workers <= 0` fails with `ErrInvalidWorkers` before the
mapping function is ever invoked; every call with `workers > 0` and
`iterations < 0` fails with `ErrInvalidIterations`; in both cases the call
returns from the validation prefix, so no worker is spawned and the
mapping function is never invoked. -/
theorem c3_validation_order :
    (∀ (w i : Int) (f : Int → Option Err) (g : MFn) (p : Option ParentCtx)
        (sched : List Label), w ≤ 0 →
      runGo w i (some f) = SetupResult.early (some Err.invalidWorkers) ∧
      runWithContextGo p w i (some g) = SetupResult.early (some Err.invalidWorkers) ∧
      callInvoked (runGo w i (some f)) sched = [] ∧
      callInvoked (runWithContextGo p w i (some g)) sched = []) ∧
    (∀ (w i : Int) (f : Int → Option Err) (g : MFn) (p : Option ParentCtx)
        (sched : List Label), 0 < w → i < 0 →
      runGo w i (some f) = SetupResult.early (some Err.invalidIterations) ∧
      runWithContextGo p w i (some g) = SetupResult.early (some Err.invalidIterations) ∧
      callInvoked (runGo w i (some f)) sched = [] ∧
      callInvoked (runWithContextGo p w i (some g)) sched = []) := by
  constructor
  · intro w i f g p sched hw
    have h1 := rwc_invalidWorkers (some ParentCtx.background) w i
      (some (fun _ j => f j)) hw
    have h2 := rwc_invalidWorkers p w i (some g) hw
    refine ⟨h1, h2, ?_, ?_⟩
    · show callInvoked (runWithContextGo (some ParentCtx.background) w i
        (some (fun _ j => f j))) sched = []
      rw [h1]
      rfl
    · rw [h2]
      rfl
  · intro w i f g p sched hw hi
    have h1 := rwc_invalidIterations (some ParentCtx.background) w i
      (some (fun _ j => f j)) hw hi
    have h2 := rwc_invalidIterations p w i (some g) hw hi
    refine ⟨h1, h2, ?_, ?_⟩
    · show callInvoked (runWithContextGo (some ParentCtx.background) w i
        (some (fun _ j => f j))) sched = []
      rw [h1]
      rfl
    · rw [h2]
      rfl

/-- C9: `Run` with a nil mapping function returns `ErrNilMappingFunction`
for every `workers` and `iterations`, including invalid ones — the nil
check precedes all other validation, and the mapping function is (trivially)
never invoked. -/
theorem c9_nil_fn_first (w i : Int) (sched : List Label) :
    callResult (runGo w i none) sched = some (some Err.nilMappingFunction) ∧
      callInvoked (runGo w i none) sched = [] := ⟨rfl, rfl⟩

/-- C7: with `workers > 0` and a non-nil mapping function, a call of `Run`
or of `RunWithContext` (on any supplied parent context) with
`iterations == 0` returns `nil` and invokes the mapping function zero
times. -/
theorem c7_zero_iterations (w : Int) (f : Int → Option Err) (g : MFn)
    (p : ParentCtx) (sched : List Label) (hw : 0 < w) :
    callResult (runGo w 0 (some f)) sched = some none ∧
    callInvoked (runGo w 0 (some f)) sched = [] ∧
    callResult (runWithContextGo (some p) w 0 (some g)) sched = some none ∧
    callInvoked (runWithContextGo (some p) w 0 (some g)) sched = [] := by
  have h1 := rwc_zeroIterations ParentCtx.background w (fun _ j => f j) hw
  have h2 := rwc_zeroIterations p w g hw
  refine ⟨?_, ?_, ?_, ?_⟩
  · show callResult (runWithContextGo (some ParentCtx.background) w 0
      (some (fun _ j => f j))) sched = some none
    rw [h1]
    rfl
  · show callInvoked (runWithContextGo (some ParentCtx.background) w 0
      (some (fun _ j => f j))) sched = []
    rw [h1]
    rfl
  · rw [h2]
    rfl
  · rw [h2]
    rfl

/-- C8: `RunWithContext` with `workers > 0`, a non-nil mapping function,
`iterations == 0` and a parent context already completed (with termination
error `e`) returns `nil`, not `e`: the zero-iterations check precedes the
already-completed check. -/
theorem c8_zero_precedes_done (w : Int) (g : MFn) (e : Err) (sched : List Label)
    (hw : 0 < w) :
    callResult (runWithContextGo (some (ParentCtx.alreadyDone e)) w 0 (some g)) sched
        = some none ∧
      callResult (runWithContextGo (some (ParentCtx.alreadyDone e)) w 0 (some g)) sched
        ≠ some (some e) := by
  have h := rwc_zeroIterations (ParentCtx.alreadyDone e) w g hw
  rw [h]
  exact ⟨rfl, by simp [callResult]⟩

/-- C4 (amended): `RunWithContext` with valid inputs, `iterations ≥ 1`, and
a parent context already completed before the call returns the parent's
termination error from the validation prefix (so immediately, with no
worker spawned) and never invokes the mapping function. -/
theorem c4_amended_already_done (w i : Int) (g : MFn) (e : Err) (sched : List Label)
    (hw : 0 < w) (hi : 1 ≤ i) :
    callResult (runWithContextGo (some (ParentCtx.alreadyDone e)) w i (some g)) sched
        = some (some e) ∧
      callInvoked (runWithContextGo (some (ParentCtx.alreadyDone e)) w i (some g)) sched
        = [] := by
  have h := rwc_alreadyDone e w i g hw hi
  rw [h]
  exact ⟨rfl, rfl⟩

/-- C4 (counterexample): with valid inputs `workers = 1`, `iterations = 0`
and a parent already completed with termination error `user 3`,
`RunWithContext` returns `nil`, not the parent's termination error — the
claim as stated fails at `iterations = 0`. -/
theorem c4_counterexample :
    callResult (runWithContextGo (some (ParentCtx.alreadyDone (Err.user 3))) 1 0
        (some allNoneF)) [] = some none ∧
      callResult (runWithContextGo (some (ParentCtx.alreadyDone (Err.user 3))) 1 0
        (some allNoneF)) [] ≠ some (some (Err.user 3)) := by
  exact ⟨rfl, by decide⟩

/-! ### List bookkeeping helpers -/

theorem map_sum_set {M : Type} [AddCommMonoid M] (f : WStatus → M) :
    ∀ (ws : List WStatus) (i : Nat) (a b : WStatus), ws.get? i = some a →
      ((ws.set i b).map f).sum + f a = (ws.map f).sum + f b
  | [], i, a, b, h => by simp at h
  | st :: rest, 0, a, b, h => by
    simp only [List.get?] at h
    injection h with h2
    subst h2
    simp only [List.set, List.map_cons, List.sum_cons]
    abel
  | st :: rest, Nat.succ i, a, b, h => by
    simp only [List.get?] at h
    have ih := map_sum_set f rest i a b h
    simp only [List.set, List.map_cons, List.sum_cons]
    rw [add_assoc, ih, ← add_assoc]

theorem get_of_allDone {ws : List WStatus} (h : allDone ws = true) {i : Nat}
    {st : WStatus} (hg : ws.get? i = some st) : st = WStatus.done := by
  have hm : st ∈ ws := List.get?_mem hg
  have := List.all_eq_true.mp h st hm
  exact beq_iff_eq.mp this

theorem firstBusy_none {ws : List WStatus} (h : firstBusy ws = none) :
    allDone ws = true := by
  induction ws with
  | nil => rfl
  | cons st rest ih =>
    unfold firstBusy at h
    by_cases hst : st = WStatus.done
    · rw [if_pos hst] at h
      cases hfb : firstBusy rest with
      | none =>
        subst hst
        simp only [allDone, List.all_cons, Bool.and_eq_true, beq_self_eq_true, true_and]
        exact ih hfb
      | some p => rw [hfb] at h; simp at h
    · rw [if_neg hst] at h
      simp at h

theorem firstBusy_spec : ∀ {ws : List WStatus} {i : Nat} {st : WStatus},
    firstBusy ws = some (i, st) → ws.get? i = some st ∧ st ≠ WStatus.done
  | [], i, st, h => by simp [firstBusy] at h
  | st0 :: rest, i, st, h => by
    unfold firstBusy at h
    by_cases hst : st0 = WStatus.done
    · rw [if_pos hst] at h
      cases hfb : firstBusy rest with
      | none => rw [hfb] at h; simp at h
      | some p =>
        obtain ⟨j, stj⟩ := p
        rw [hfb] at h
        simp only [Option.map_some', Option.some.injEq, Prod.mk.injEq] at h
        obtain ⟨hj, hstj⟩ := h
        subst hstj
        have hrec := firstBusy_spec hfb
        rw [← hj]
        exact ⟨hrec.1, hrec.2⟩
    · rw [if_neg hst] at h
      simp only [Option.some.injEq, Prod.mk.injEq] at h
      obtain ⟨hj, hstj⟩ := h
      subst hstj
      rw [← hj]
      exact ⟨rfl, hst⟩

theorem pendM_of_allDone {ws : List WStatus} (h : allDone ws = true) :
    pendM ws = 0 := by
  induction ws with
  | nil => rfl
  | cons st rest ih =>
    simp only [allDone, List.all_cons, Bool.and_eq_true, beq_iff_eq] at h
    obtain ⟨rfl, h2⟩ := h
    have hrest := ih h2
    simp only [pendM, List.map_cons, List.sum_cons] at hrest ⊢
    simp [pendOf, hrest]

theorem doneCt_of_allDone {ws : List WStatus} (h : allDone ws = true) :
    doneCt ws = ws.length := by
  induction ws with
  | nil => rfl
  | cons st rest ih =>
    simp only [allDone, List.all_cons, Bool.and_eq_true, beq_iff_eq] at h
    obtain ⟨rfl, h2⟩ := h
    have hrest := ih h2
    simp only [doneCt, List.map_cons, List.sum_cons, List.length_cons] at hrest ⊢
    simp only [doneOf]
    omega

/-! ### The lone-worker unbounded run (32-bit wrap-around) -/

theorem wc_step_pair (P : Params) (hAS : AllSuccess P.fn)
    (hN : 2 ^ 31 ≤ P.iterations) (j : Nat) :
    step P (step P (wcState j) (Label.work 0)) (Label.claim 0) = wcState (j + 1) := by
  have hlt : wrap32 j < P.iterations := lt_of_lt_of_le (wrap32_ub _) hN
  have h1 : step P (wcState j) (Label.work 0) =
      { wcState j with invoked := (wcState j).invoked ++ [wrap32 (j : Int)],
                       workers := [WStatus.next] } := by
    show workStep P (wcState j) 0 (wrap32 (j : Int)) = _
    unfold workStep
    rw [if_pos hlt, hAS]
    rfl
  rw [h1]
  show ({ wcState j with
      cursor := wrap32 ((wcState j).cursor + 1),
      invoked := (wcState j).invoked ++ [wrap32 (j : Int)],
      workers := [WStatus.run (wrap32 ((wcState j).cursor + 1))] } : Config)
    = wcState (j + 1)
  have hc : wrap32 ((wcState j).cursor + 1) = wrap32 ((j + 1 : Nat) : Int) := by
    show wrap32 (wrap32 (j : Int) + 1) = _
    rw [wrap32_add_left]
    congr 1
  have hi : (wcState j).invoked ++ [wrap32 (j : Int)]
      = (List.range (j + 1)).map (fun n : Nat => wrap32 (n : Int)) := by
    show (List.range j).map (fun n : Nat => wrap32 (n : Int)) ++ [wrap32 (j : Int)] = _
    rw [List.range_succ, List.map_append]
    rfl
  rw [hc, hi]
  rfl

theorem sched_run_nil (P : Params) (s : Config) : sched_run P s [] = s := rfl

theorem sched_run_cons (P : Params) (s : Config) (L : Label) (rest : List Label) :
    sched_run P s (L :: rest) = sched_run P (step P s L) rest := rfl

theorem wcSched_succ (k : Nat) :
    wcSched (Nat.succ k) = Label.work 0 :: Label.claim 0 :: wcSched k := rfl

theorem wcState_invoked (k : Nat) :
    (wcState k).invoked = (List.range k).map (fun n : Nat => wrap32 (n : Int)) := rfl

theorem wc_run (P : Params) (hAS : AllSuccess P.fn) (hN : 2 ^ 31 ≤ P.iterations) :
    ∀ (k j : Nat), sched_run P (wcState j) (wcSched k) = wcState (j + k)
  | 0, j => by rw [Nat.add_zero]; rfl
  | Nat.succ k, j => by
    rw [wcSched_succ, sched_run_cons, sched_run_cons, wc_step_pair P hAS hN j,
        wc_run P hAS hN k (j + 1)]
    congr 1
    omega

theorem wc_invoked_dup (P : Params) (hAS : AllSuccess P.fn)
    (hN : 2 ^ 31 ≤ P.iterations) :
    ¬ (sched_run P (wcState 0) (wcSched (2 ^ 32 + 1))).invoked.Nodup := by
  rw [wc_run P hAS hN (2 ^ 32 + 1) 0]
  intro hnd
  have hinv : (wcState (0 + (2 ^ 32 + 1))).invoked
      = (List.range (2 ^ 32 + 1)).map (fun n : Nat => wrap32 (n : Int)) := by
    rw [Nat.zero_add, wcState_invoked]
  rw [hinv] at hnd
  have h1 : (0 : Nat) ∈ List.range (2 ^ 32 + 1) := by
    rw [List.mem_range]
    omega
  have h2 : (2 ^ 32 : Nat) ∈ List.range (2 ^ 32 + 1) := by
    rw [List.mem_range]
    omega
  have heq : wrap32 ((0 : Nat) : Int) = wrap32 ((2 ^ 32 : Nat) : Int) := by
    unfold wrap32
    norm_num
  have h0 := List.inj_on_of_nodup_map hnd h1 h2 heq
  have h32 : (0 : Nat) ≠ 2 ^ 32 := by norm_num
  exact h32 h0

theorem initConfig_one : initConfig 1 = wcState 0 := by decide

theorem callResult_spawn (P : Params) (c : Config) (sched : List Label) :
    callResult (SetupResult.spawn P c) sched = (sched_run P c sched).result := rfl

theorem callInvoked_spawn (P : Params) (c : Config) (sched : List Label) :
    callInvoked (SetupResult.spawn P c) sched = (sched_run P c sched).invoked := rfl

theorem callWatcherFired_spawn (P : Params) (c : Config) (sched : List Label) :
    callWatcherFired (SetupResult.spawn P c) sched = (sched_run P c sched).watcherFired := rfl

/-- C1 (counterexample): with `workers = 1`, `iterations = 2^31` and a
mapping function whose every invocation returns `nil`, there is a schedule
of `Run` under which some index is dispatched twice — the 32-bit cursor
wraps around, so the exactly-once claim fails as stated for unrestricted
`iterations`. -/
theorem c1_counterexample :
    ¬ (callInvoked (runGo 1 (2 ^ 31) (some allNoneI)) (wcSched (2 ^ 32 + 1))).Nodup := by
  have hsetup : runGo 1 (2 ^ 31) (some allNoneI)
      = SetupResult.spawn ⟨2 ^ 31, fun _ j => allNoneI j, ParentCtx.background⟩
          (initConfig 1) := by
    show runWithContextGo (some ParentCtx.background) 1 (2 ^ 31)
      (some (fun _ j => allNoneI j)) = _
    rw [rwc_spawn ParentCtx.background 1 (2 ^ 31) _ (by norm_num) (by norm_num) rfl]
    congr 1
  rw [hsetup, callInvoked_spawn, initConfig_one]
  exact wc_invoked_dup _ (fun b j => rfl) (by norm_num)

/-- C10: the shared work cursor is a 32-bit integer: the initial cursor is
`int32(workers - 1)`, each claim is a wrapping 32-bit increment of it, and
forced exhaustion stores `int32(iterations)`; consequently the
exactly-once-per-index dispatch guarantee holds only when `iterations`
fits in a signed 32-bit integer — for every `iterations ≥ 2^31` it fails. -/
theorem c10_int32_cursor :
    (∀ w : Nat, (initConfig w).cursor = wrap32 ((w : Int) - 1)) ∧
    (∀ (P : Params) (s : Config) (i : Nat), s.workers.get? i = some WStatus.next →
      (step P s (Label.claim i)).cursor = wrap32 (s.cursor + 1)) ∧
    (∀ (P : Params) (s : Config) (i : Nat) (j : Int) (e : Err), s.killOnce = 0 →
      (killStep P s i j e).cursor = wrap32 P.iterations) ∧
    (∀ N : Int, 2 ^ 31 ≤ N →
      ¬ DispatchSafe ⟨N, allNoneF, ParentCtx.background⟩ (initConfig 1)) := by
  refine ⟨fun w => rfl, ?_, ?_, ?_⟩
  · intro P s i h
    simp only [step]
    rw [h]
  · intro P s i j e h
    unfold killStep
    rw [if_pos h]
  · intro N hN hDS
    have hdup := wc_invoked_dup ⟨N, allNoneF, ParentCtx.background⟩ (fun b j => rfl) hN
    have hnd := (hDS (wcSched (2 ^ 32 + 1))).1
    rw [initConfig_one] at hnd
    exact hdup hnd

/-! ### Counting lemmas for the no-failure invariant -/

theorem indexRange_card (m : Int) : Multiset.card (indexRange m) = m.toNat := by
  simp [indexRange]

theorem indexRange_filter_ge_card (N m : Int) (hN : 0 ≤ N) :
    Multiset.card ((indexRange m).filter (fun v => N ≤ v)) = (m - N).toNat := by
  by_cases hm : m ≤ N
  · have h0 : (indexRange m).filter (fun v => N ≤ v) = 0 :=
      Multiset.filter_eq_nil.mpr (fun v hv => by
        have := (mem_indexRange.mp hv).2
        omega)
    rw [h0]
    simp
    omega
  · push_neg at hm
    obtain ⟨k, hk⟩ : ∃ k : Nat, m = N + k := ⟨(m - N).toNat, by omega⟩
    subst hk
    rw [(indexRange_filter N hN k).2]
    omega

theorem pend_done_le : ∀ ws : List WStatus, (pendM ws).card + doneCt ws ≤ ws.length
  | [] => by simp [pendM, doneCt]
  | st :: rest => by
    have ih := pend_done_le rest
    simp only [pendM, doneCt, List.map_cons, List.sum_cons, List.length_cons,
      Multiset.card_add] at ih ⊢
    cases st <;> simp only [pendOf, doneOf] <;> simp <;> omega

theorem pend_done_lt : ∀ (ws : List WStatus) (i : Nat),
    ws.get? i = some WStatus.next → (pendM ws).card + doneCt ws + 1 ≤ ws.length
  | [], i, h => by simp at h
  | st :: rest, 0, h => by
    simp only [List.get?] at h
    injection h with h2
    subst h2
    have hle := pend_done_le rest
    simp only [pendM, doneCt, List.map_cons, List.sum_cons, List.length_cons,
      Multiset.card_add, pendOf, doneOf] at hle ⊢
    simp
    omega
  | st :: rest, Nat.succ i, h => by
    simp only [List.get?] at h
    have ih := pend_done_lt rest i h
    simp only [pendM, doneCt, List.map_cons, List.sum_cons, List.length_cons,
      Multiset.card_add] at ih ⊢
    cases st <;> simp only [pendOf, doneOf] <;> simp <;> omega

theorem nokill_highs (P : Params) (w : Nat) (s : Config) (h : NoKillInv P w s)
    (hN : 0 ≤ P.iterations) :
    (s.cursor + 1 - P.iterations).toNat ≤ (pendM s.workers).card + s.retired.length := by
  have hpart := h.part
  have hfilter := congrArg (Multiset.filter (fun v => P.iterations ≤ v)) hpart
  rw [Multiset.filter_add, Multiset.filter_add] at hfilter
  have hinv0 : Multiset.filter (fun v => P.iterations ≤ v) (s.invoked : Multiset Int)
      = 0 :=
    Multiset.filter_eq_nil.mpr (fun v hv => by
      have := h.invLt v (by exact_mod_cast hv)
      omega)
  rw [hinv0, zero_add] at hfilter
  have hcard := congrArg Multiset.card hfilter
  rw [indexRange_filter_ge_card _ _ hN, Multiset.card_add] at hcard
  have h1 : Multiset.card (Multiset.filter (fun v => P.iterations ≤ v) (pendM s.workers))
      ≤ (pendM s.workers).card := Multiset.card_le_card (Multiset.filter_le _ _)
  have h2 : Multiset.card (Multiset.filter (fun v => P.iterations ≤ v)
      (s.retired : Multiset Int)) ≤ s.retired.length := by
    have := Multiset.card_le_card
      (Multiset.filter_le (fun v => P.iterations ≤ v) (s.retired : Multiset Int))
    simpa using this
  omega

theorem nokill_claim_bound (P : Params) (w : Nat) (s : Config) (h : NoKillInv P w s)
    (hN : 0 ≤ P.iterations) (i : Nat) (hg : s.workers.get? i = some WStatus.next) :
    s.cursor ≤ P.iterations + w - 2 := by
  have hhi := nokill_highs P w s h hN
  have hlt := pend_done_lt s.workers i hg
  rw [h.wlen] at hlt
  rw [h.retCt] at hhi
  omega

/-! ### Preservation of the no-failure invariant -/

theorem nokill_work_low (P : Params) (w : Nat) (s : Config) (i : Nat) (j : Int)
    (h : NoKillInv P w s) (hg : s.workers.get? i = some (WStatus.run j))
    (hj : j < P.iterations) :
    NoKillInv P w
      { s with invoked := s.invoked ++ [j],
               workers := s.workers.set i WStatus.next } := by
  have hm : pendM (s.workers.set i WStatus.next) + {j} = pendM s.workers := by
    have hms := map_sum_set pendOf s.workers i (WStatus.run j) WStatus.next hg
    show ((s.workers.set i WStatus.next).map pendOf).sum + {j}
      = (s.workers.map pendOf).sum
    have h1 : ((s.workers.set i WStatus.next).map pendOf).sum + {j}
        = (s.workers.map pendOf).sum + 0 := hms
    rw [h1, add_zero]
  have hdc : doneCt (s.workers.set i WStatus.next) = doneCt s.workers := by
    have hms := map_sum_set doneOf s.workers i (WStatus.run j) WStatus.next hg
    show ((s.workers.set i WStatus.next).map doneOf).sum = (s.workers.map doneOf).sum
    have h1 : ((s.workers.set i WStatus.next).map doneOf).sum + 0
        = (s.workers.map doneOf).sum + 0 := hms
    omega
  refine ⟨?_, h.ko, h.fe, h.ic, h.pd, h.clo, ?_, ?_, h.retGe, ?_, ?_⟩
  · simp [List.length_set, h.wlen]
  · show ((s.invoked ++ [j] : List Int) : Multiset Int)
        + pendM (s.workers.set i WStatus.next) + (s.retired : Multiset Int)
      = indexRange (s.cursor + 1)
    rw [← h.part]
    have hco : ((s.invoked ++ [j] : List Int) : Multiset Int)
        = (s.invoked : Multiset Int) + {j} := by
      rw [← Multiset.coe_singleton, Multiset.coe_add]
    rw [hco, ← hm]
    abel
  · intro v hv
    rcases List.mem_append.mp hv with h1 | h1
    · exact h.invLt v h1
    · simp only [List.mem_singleton] at h1
      omega
  · show s.retired.length = doneCt (s.workers.set i WStatus.next)
    rw [hdc]
    exact h.retCt
  · intro r hr
    have hres := h.res r hr
    have := get_of_allDone hres.2 hg
    simp at this

theorem nokill_work_high (P : Params) (w : Nat) (s : Config) (i : Nat) (j : Int)
    (h : NoKillInv P w s) (hg : s.workers.get? i = some (WStatus.run j))
    (hj : ¬ j < P.iterations) :
    NoKillInv P w
      { s with retired := s.retired ++ [j],
               workers := s.workers.set i WStatus.done } := by
  have hm : pendM (s.workers.set i WStatus.done) + {j} = pendM s.workers := by
    have hms := map_sum_set pendOf s.workers i (WStatus.run j) WStatus.done hg
    show ((s.workers.set i WStatus.done).map pendOf).sum + {j}
      = (s.workers.map pendOf).sum
    have h1 : ((s.workers.set i WStatus.done).map pendOf).sum + {j}
        = (s.workers.map pendOf).sum + 0 := hms
    rw [h1, add_zero]
  have hdc : doneCt (s.workers.set i WStatus.done) = doneCt s.workers + 1 := by
    have hms := map_sum_set doneOf s.workers i (WStatus.run j) WStatus.done hg
    show ((s.workers.set i WStatus.done).map doneOf).sum = (s.workers.map doneOf).sum + 1
    have h1 : ((s.workers.set i WStatus.done).map doneOf).sum + 0
        = (s.workers.map doneOf).sum + 1 := hms
    omega
  refine ⟨?_, h.ko, h.fe, h.ic, h.pd, h.clo, ?_, h.invLt, ?_, ?_, ?_⟩
  · simp [List.length_set, h.wlen]
  · show (s.invoked : Multiset Int) + pendM (s.workers.set i WStatus.done)
        + ((s.retired ++ [j] : List Int) : Multiset Int)
      = indexRange (s.cursor + 1)
    rw [← h.part]
    have hco : ((s.retired ++ [j] : List Int) : Multiset Int)
        = (s.retired : Multiset Int) + {j} := by
      rw [← Multiset.coe_singleton, Multiset.coe_add]
    rw [hco, ← hm]
    abel
  · intro v hv
    rcases List.mem_append.mp hv with h1 | h1
    · exact h.retGe v h1
    · simp only [List.mem_singleton] at h1
      omega
  · show (s.retired ++ [j]).length = doneCt (s.workers.set i WStatus.done)
    rw [hdc, List.length_append, h.retCt]
    rfl
  · intro r hr
    have hres := h.res r hr
    have := get_of_allDone hres.2 hg
    simp at this

theorem nokill_claim_step (P : Params) (w : Nat) (s : Config) (i : Nat)
    (h : NoKillInv P w s) (hg : s.workers.get? i = some WStatus.next)
    (hw : 1 ≤ w) (hwN : (w : Int) ≤ P.iterations) (hbound : P.iterations + w ≤ 2 ^ 31) :
    NoKillInv P w
      { s with cursor := wrap32 (s.cursor + 1),
               workers := s.workers.set i (WStatus.run (wrap32 (s.cursor + 1))) } := by
  have hN : 0 ≤ P.iterations := by omega
  have hub := nokill_claim_bound P w s h hN i hg
  have hclo := h.clo
  have hwrap : wrap32 (s.cursor + 1) = s.cursor + 1 := by
    apply wrap32_eq_self
    · omega
    · omega
  rw [hwrap]
  have hm : pendM (s.workers.set i (WStatus.run (s.cursor + 1)))
      = pendM s.workers + {s.cursor + 1} := by
    have hms := map_sum_set pendOf s.workers i WStatus.next
      (WStatus.run (s.cursor + 1)) hg
    show ((s.workers.set i (WStatus.run (s.cursor + 1))).map pendOf).sum
      = (s.workers.map pendOf).sum + {s.cursor + 1}
    have h1 : ((s.workers.set i (WStatus.run (s.cursor + 1))).map pendOf).sum + 0
        = (s.workers.map pendOf).sum + {s.cursor + 1} := hms
    rw [add_zero] at h1
    exact h1
  have hdc : doneCt (s.workers.set i (WStatus.run (s.cursor + 1))) = doneCt s.workers := by
    have hms := map_sum_set doneOf s.workers i WStatus.next
      (WStatus.run (s.cursor + 1)) hg
    show ((s.workers.set i (WStatus.run (s.cursor + 1))).map doneOf).sum
      = (s.workers.map doneOf).sum
    have h1 : ((s.workers.set i (WStatus.run (s.cursor + 1))).map doneOf).sum + 0
        = (s.workers.map doneOf).sum + 0 := hms
    omega
  refine ⟨?_, h.ko, h.fe, h.ic, h.pd, ?_, ?_, h.invLt, h.retGe, ?_, ?_⟩
  · simp [List.length_set, h.wlen]
  · show (w : Int) - 1 ≤ s.cursor + 1
    omega
  · show (s.invoked : Multiset Int)
        + pendM (s.workers.set i (WStatus.run (s.cursor + 1)))
        + (s.retired : Multiset Int)
      = indexRange (s.cursor + 1 + 1)
    rw [indexRange_succ (by omega : (0 : Int) ≤ s.cursor + 1),
      ← Multiset.singleton_add, ← h.part, hm]
    abel
  · show s.retired.length = doneCt (s.workers.set i (WStatus.run (s.cursor + 1)))
    rw [hdc]
    exact h.retCt
  · intro r hr
    have hres := h.res r hr
    have := get_of_allDone hres.2 hg
    simp at this

theorem nokill_preserved (P : Params) (w : Nat) (s : Config) (L : Label)
    (hAS : AllSuccess P.fn) (hbg : P.parent = ParentCtx.background)
    (hw : 1 ≤ w) (hwN : (w : Int) ≤ P.iterations) (hbound : P.iterations + w ≤ 2 ^ 31)
    (h : NoKillInv P w s) : NoKillInv P w (step P s L) := by
  cases L with
  | work i =>
    cases hg : s.workers.get? i with
    | none =>
      have hstep : step P s (Label.work i) = s := by
        simp only [step]
        rw [hg]
      rw [hstep]
      exact h
    | some st =>
      cases st with
      | run j =>
        by_cases hj : j < P.iterations
        · have hstep : step P s (Label.work i)
              = { s with invoked := s.invoked ++ [j],
                         workers := s.workers.set i WStatus.next } := by
            simp only [step, hg]
            unfold workStep
            rw [if_pos hj, hAS]
          rw [hstep]
          exact nokill_work_low P w s i j h hg hj
        · have hstep : step P s (Label.work i)
              = { s with retired := s.retired ++ [j],
                         workers := s.workers.set i WStatus.done } := by
            simp only [step, hg]
            unfold workStep
            rw [if_neg hj]
          rw [hstep]
          exact nokill_work_high P w s i j h hg hj
      | next =>
        have hstep : step P s (Label.work i) = s := by
          simp only [step]
          rw [hg]
        rw [hstep]
        exact h
      | done =>
        have hstep : step P s (Label.work i) = s := by
          simp only [step]
          rw [hg]
        rw [hstep]
        exact h
  | claim i =>
    cases hg : s.workers.get? i with
    | none =>
      have hstep : step P s (Label.claim i) = s := by
        simp only [step]
        rw [hg]
      rw [hstep]
      exact h
    | some st =>
      cases st with
      | run j =>
        have hstep : step P s (Label.claim i) = s := by
          simp only [step]
          rw [hg]
        rw [hstep]
        exact h
      | next =>
        have hstep : step P s (Label.claim i)
            = { s with cursor := wrap32 (s.cursor + 1),
                       workers := s.workers.set i (WStatus.run (wrap32 (s.cursor + 1))) } := by
          simp only [step, hg]
        rw [hstep]
        exact nokill_claim_step P w s i h hg hw hwN hbound
      | done =>
        have hstep : step P s (Label.claim i) = s := by
          simp only [step]
          rw [hg]
        rw [hstep]
        exact h
  | pdone =>
    have hstep : step P s Label.pdone = s := by
      simp only [step, hbg]
    rw [hstep]
    exact h
  | watch =>
    have hW : hasWatcher P = false := by simp [hasWatcher, hbg]
    have hstep : step P s Label.watch = s := by
      simp only [step]
      rw [if_neg]
      intro hc
      rw [hW] at hc
      simp at hc
    rw [hstep]
    exact h
  | resolve =>
    by_cases hcond : s.result = none ∧ allDone s.workers = true
    · have hW : hasWatcher P = false := by simp [hasWatcher, hbg]
      have hstep : step P s Label.resolve = { s with result := some none } := by
        show resolveStep P s = _
        unfold resolveStep
        rw [if_pos hcond, h.fe, if_pos hW]
      rw [hstep]
      refine ⟨h.wlen, h.ko, h.fe, h.ic, h.pd, h.clo, h.part, h.invLt, h.retGe,
        h.retCt, ?_⟩
      intro r hr
      have h2 : some (none : Option Err) = some r := hr
      obtain rfl : (none : Option Err) = r := Option.some.inj h2
      exact ⟨rfl, hcond.2⟩
    · have hstep : step P s Label.resolve = s := by
        show resolveStep P s = _
        unfold resolveStep
        rw [if_neg hcond]
      rw [hstep]
      exact h

/-! ### The no-failure invariant: initialisation, execution, extraction -/

theorem pendM_init (w : Nat) :
    pendM ((List.range w).map (fun i : Nat => WStatus.run (i : Int)))
      = indexRange (w : Int) := by
  induction w with
  | zero => rfl
  | succ n ih =>
    have hcast : ((n + 1 : Nat) : Int) = (n : Int) + 1 := by push_cast; ring
    rw [hcast, indexRange_succ (by positivity)]
    show (((List.range (n + 1)).map (fun i : Nat => WStatus.run (i : Int))).map
      pendOf).sum = _
    rw [List.range_succ, List.map_append, List.map_append, List.sum_append]
    have ih2 : (((List.range n).map (fun i : Nat => WStatus.run (i : Int))).map
        pendOf).sum = indexRange (n : Int) := ih
    rw [ih2]
    show indexRange (n : Int) + ({(n : Int)} + 0) = _
    rw [add_zero, add_comm, Multiset.singleton_add]

theorem doneCt_init (w : Nat) :
    doneCt ((List.range w).map (fun i : Nat => WStatus.run (i : Int))) = 0 := by
  apply List.sum_eq_zero
  intro x hx
  simp only [List.map_map, List.mem_map] at hx
  obtain ⟨i, _, rfl⟩ := hx
  rfl

theorem nokill_init (P : Params) (w : Nat) (hw : 1 ≤ w)
    (hwN : (w : Int) ≤ P.iterations) (hbound : P.iterations + w ≤ 2 ^ 31) :
    NoKillInv P w (initConfig w) := by
  have hcur : (initConfig w).cursor = (w : Int) - 1 := by
    show wrap32 ((w : Int) - 1) = (w : Int) - 1
    apply wrap32_eq_self
    · omega
    · omega
  refine ⟨?_, rfl, rfl, rfl, rfl, ?_, ?_, ?_, ?_, ?_, ?_⟩
  · simp [initConfig]
  · rw [hcur]
  · rw [hcur]
    show (([] : List Int) : Multiset Int)
        + pendM ((List.range w).map (fun i : Nat => WStatus.run (i : Int)))
        + (([] : List Int) : Multiset Int)
      = indexRange ((w : Int) - 1 + 1)
    rw [pendM_init]
    have h1 : (w : Int) - 1 + 1 = (w : Int) := by ring
    rw [h1]
    simp
  · intro v hv
    simp only [initConfig, List.not_mem_nil] at hv
  · intro v hv
    simp only [initConfig, List.not_mem_nil] at hv
  · show ([] : List Int).length
      = doneCt ((List.range w).map (fun i : Nat => WStatus.run (i : Int)))
    rw [doneCt_init]
    rfl
  · intro r hr
    exact absurd hr (by simp [initConfig])

theorem nokill_run (P : Params) (w : Nat) (hAS : AllSuccess P.fn)
    (hbg : P.parent = ParentCtx.background) (hw : 1 ≤ w)
    (hwN : (w : Int) ≤ P.iterations) (hbound : P.iterations + w ≤ 2 ^ 31) :
    ∀ (sched : List Label) (s : Config), NoKillInv P w s →
      NoKillInv P w (sched_run P s sched)
  | [], s, h => h
  | L :: rest, s, h => by
    rw [sched_run_cons]
    exact nokill_run P w hAS hbg hw hwN hbound rest (step P s L)
      (nokill_preserved P w s L hAS hbg hw hwN hbound h)

theorem nokill_safety (P : Params) (w : Nat) (s : Config) (h : NoKillInv P w s) :
    s.invoked.Nodup ∧ ∀ v ∈ s.invoked, 0 ≤ v ∧ v < P.iterations := by
  have hle : (s.invoked : Multiset Int) ≤ indexRange (s.cursor + 1) := by
    rw [← h.part]
    calc (s.invoked : Multiset Int)
        ≤ (s.invoked : Multiset Int) + pendM s.workers := Multiset.le_add_right _ _
      _ ≤ (s.invoked : Multiset Int) + pendM s.workers + (s.retired : Multiset Int) :=
          Multiset.le_add_right _ _
  constructor
  · have hnd := Multiset.nodup_of_le hle (indexRange_nodup (s.cursor + 1))
    exact Multiset.coe_nodup.mp hnd
  · intro v hv
    refine ⟨?_, h.invLt v hv⟩
    have hmem : v ∈ indexRange (s.cursor + 1) :=
      Multiset.mem_of_le hle (Multiset.mem_coe.mpr hv)
    exact (mem_indexRange.mp hmem).1

theorem nokill_final (P : Params) (w : Nat) (s : Config) (h : NoKillInv P w s)
    (hw : 1 ≤ w) (hN : 0 ≤ P.iterations) (hdone : allDone s.workers = true) :
    (s.invoked : Multiset Int) = indexRange P.iterations := by
  have hp0 : pendM s.workers = 0 := pendM_of_allDone hdone
  have hret : s.retired.length = w := by
    rw [h.retCt, doneCt_of_allDone hdone, h.wlen]
  have hpart : (s.invoked : Multiset Int) + (s.retired : Multiset Int)
      = indexRange (s.cursor + 1) := by
    have hp := h.part
    rw [hp0, add_zero] at hp
    exact hp
  have hfilter := congrArg (Multiset.filter (fun v => P.iterations ≤ v)) hpart
  rw [Multiset.filter_add] at hfilter
  have hinv0 : (s.invoked : Multiset Int).filter (fun v => P.iterations ≤ v) = 0 :=
    Multiset.filter_eq_nil.mpr (fun v hv => by
      have := h.invLt v (by exact_mod_cast hv)
      omega)
  have hretf : (s.retired : Multiset Int).filter (fun v => P.iterations ≤ v)
      = (s.retired : Multiset Int) :=
    Multiset.filter_eq_self.mpr (fun v hv => h.retGe v (by exact_mod_cast hv))
  rw [hinv0, zero_add, hretf] at hfilter
  have hcard := congrArg Multiset.card hfilter
  rw [indexRange_filter_ge_card _ _ hN] at hcard
  have hcard2 : w = (s.cursor + 1 - P.iterations).toNat := by
    rw [← hret]
    simpa using hcard
  have hclo := h.clo
  have hc : s.cursor + 1 = P.iterations + w := by omega
  have hfl := congrArg (Multiset.filter (fun v => v < P.iterations)) hpart
  rw [Multiset.filter_add] at hfl
  have hinvf : (s.invoked : Multiset Int).filter (fun v => v < P.iterations)
      = (s.invoked : Multiset Int) :=
    Multiset.filter_eq_self.mpr (fun v hv => h.invLt v (by exact_mod_cast hv))
  have hretf0 : (s.retired : Multiset Int).filter (fun v => v < P.iterations) = 0 :=
    Multiset.filter_eq_nil.mpr (fun v hv => by
      have := h.retGe v (by exact_mod_cast hv)
      omega)
  rw [hinvf, hretf0, add_zero] at hfl
  rw [hfl, hc]
  exact (indexRange_filter P.iterations hN w).1

/-! ### Termination of an error-free background run -/

theorem pick_none {s : Config} (h : pick s = none) : s.result ≠ none := by
  intro hr
  unfold pick at h
  rw [if_pos hr] at h
  cases hfb : firstBusy s.workers with
  | none => rw [hfb] at h; simp at h
  | some p =>
    obtain ⟨i, st⟩ := p
    rw [hfb] at h
    cases st <;> simp at h

theorem mu_decreases (P : Params) (w : Nat) (s : Config) (hAS : AllSuccess P.fn)
    (hbg : P.parent = ParentCtx.background) (hw : 1 ≤ w)
    (hwN : (w : Int) ≤ P.iterations) (hbound : P.iterations + w ≤ 2 ^ 31)
    (h : NoKillInv P w s) (L : Label) (hL : pick s = some L) :
    mu P w (step P s L) < mu P w s := by
  have hN : 0 ≤ P.iterations := by omega
  unfold pick at hL
  by_cases hres : s.result = none
  · rw [if_pos hres] at hL
    cases hfb : firstBusy s.workers with
    | none =>
      rw [hfb] at hL
      have hLr : L = Label.resolve := by
        injection hL with h2
        exact h2.symm
      subst hLr
      have hdone : allDone s.workers = true := firstBusy_none hfb
      have hW : hasWatcher P = false := by simp [hasWatcher, hbg]
      have hstep : step P s Label.resolve = { s with result := some none } := by
        show resolveStep P s = _
        unfold resolveStep
        rw [if_pos ⟨hres, hdone⟩, h.fe, if_pos hW]
      rw [hstep]
      show 2 * (P.iterations + (w : Int) - 1 - s.cursor).toNat
          + (s.workers.map weight).sum
          + (if (some (none : Option Err) : Option (Option Err)) = none then 1 else 0)
        < 2 * (P.iterations + (w : Int) - 1 - s.cursor).toNat
          + (s.workers.map weight).sum + (if s.result = none then 1 else 0)
      rw [if_neg (by simp), if_pos hres]
      omega
    | some p =>
      obtain ⟨i, st⟩ := p
      rw [hfb] at hL
      have hspec := firstBusy_spec hfb
      cases st with
      | run j =>
        have hLr : L = Label.work i := by
          injection hL with h2
          exact h2.symm
        subst hLr
        have hg := hspec.1
        by_cases hj : j < P.iterations
        · have hstep : step P s (Label.work i)
              = { s with invoked := s.invoked ++ [j],
                         workers := s.workers.set i WStatus.next } := by
            simp only [step, hg]
            unfold workStep
            rw [if_pos hj, hAS]
          rw [hstep]
          have hws := map_sum_set weight s.workers i (WStatus.run j) WStatus.next hg
          show 2 * (P.iterations + (w : Int) - 1 - s.cursor).toNat
              + ((s.workers.set i WStatus.next).map weight).sum
              + (if s.result = none then 1 else 0)
            < 2 * (P.iterations + (w : Int) - 1 - s.cursor).toNat
              + (s.workers.map weight).sum + (if s.result = none then 1 else 0)
          have h1 : ((s.workers.set i WStatus.next).map weight).sum + 2
              = (s.workers.map weight).sum + 1 := hws
          omega
        · have hstep : step P s (Label.work i)
              = { s with retired := s.retired ++ [j],
                         workers := s.workers.set i WStatus.done } := by
            simp only [step, hg]
            unfold workStep
            rw [if_neg hj]
          rw [hstep]
          have hws := map_sum_set weight s.workers i (WStatus.run j) WStatus.done hg
          show 2 * (P.iterations + (w : Int) - 1 - s.cursor).toNat
              + ((s.workers.set i WStatus.done).map weight).sum
              + (if s.result = none then 1 else 0)
            < 2 * (P.iterations + (w : Int) - 1 - s.cursor).toNat
              + (s.workers.map weight).sum + (if s.result = none then 1 else 0)
          have h1 : ((s.workers.set i WStatus.done).map weight).sum + 2
              = (s.workers.map weight).sum + 0 := hws
          omega
      | next =>
        have hLr : L = Label.claim i := by
          injection hL with h2
          exact h2.symm
        subst hLr
        have hg := hspec.1
        have hub := nokill_claim_bound P w s h hN i hg
        have hclo := h.clo
        have hwrap : wrap32 (s.cursor + 1) = s.cursor + 1 := by
          apply wrap32_eq_self
          · omega
          · omega
        have hstep : step P s (Label.claim i)
            = { s with cursor := s.cursor + 1,
                       workers := s.workers.set i (WStatus.run (s.cursor + 1)) } := by
          simp only [step, hg, hwrap]
        rw [hstep]
        have hws := map_sum_set weight s.workers i WStatus.next
          (WStatus.run (s.cursor + 1)) hg
        show 2 * (P.iterations + (w : Int) - 1 - (s.cursor + 1)).toNat
            + ((s.workers.set i (WStatus.run (s.cursor + 1))).map weight).sum
            + (if s.result = none then 1 else 0)
          < 2 * (P.iterations + (w : Int) - 1 - s.cursor).toNat
            + (s.workers.map weight).sum + (if s.result = none then 1 else 0)
        have h1 : ((s.workers.set i (WStatus.run (s.cursor + 1))).map weight).sum + 1
            = (s.workers.map weight).sum + 2 := hws
        have h2 : (P.iterations + (w : Int) - 1 - (s.cursor + 1)).toNat + 1
            = (P.iterations + (w : Int) - 1 - s.cursor).toNat := by omega
        omega
      | done => exact absurd rfl hspec.2
  · rw [if_neg hres] at hL
    simp at hL

theorem greedy_completes (P : Params) (w : Nat) (hAS : AllSuccess P.fn)
    (hbg : P.parent = ParentCtx.background) (hw : 1 ≤ w)
    (hwN : (w : Int) ≤ P.iterations) (hbound : P.iterations + w ≤ 2 ^ 31) :
    ∀ (n : Nat) (s : Config), NoKillInv P w s → mu P w s ≤ n →
      (sched_run P s (greedySched P n s)).result ≠ none := by
  intro n
  induction n with
  | zero =>
    intro s h hmu
    show (sched_run P s []).result ≠ none
    intro hres
    have h1 : 1 ≤ mu P w s := by
      unfold mu
      have hres2 : s.result = none := hres
      rw [if_pos hres2]
      omega
    omega
  | succ n ih =>
    intro s h hmu
    cases hpick : pick s with
    | none =>
      have hres := pick_none hpick
      have hsched : greedySched P (Nat.succ n) s = [] := by
        show (match pick s with
          | none => ([] : List Label)
          | some L2 => L2 :: greedySched P n (step P s L2)) = []
        rw [hpick]
      rw [hsched]
      exact hres
    | some L =>
      have hsched : greedySched P (Nat.succ n) s
          = L :: greedySched P n (step P s L) := by
        show (match pick s with
          | none => ([] : List Label)
          | some L2 => L2 :: greedySched P n (step P s L2))
          = L :: greedySched P n (step P s L)
        rw [hpick]
      rw [hsched, sched_run_cons]
      apply ih (step P s L)
        (nokill_preserved P w s L hAS hbg hw hwN hbound h)
      have := mu_decreases P w s hAS hbg hw hwN hbound h L hpick
      omega

/-- C1 (amended): for every `workers > 0`, `iterations ≥ 0` with
`iterations + min(workers, iterations) ≤ 2^31` (so the 32-bit cursor never
overflows during the run), and a mapping function whose every invocation
returns `nil`: under every schedule no index is dispatched twice and all
dispatched indices lie in `[0, iterations)`; whenever the run completes it
returns `nil` having invoked the mapping function on exactly the indices
`[0, iterations)`, each exactly once; and some schedule completes the
run. -/
theorem c1_amended_exactly_once (workers iterations : Int) (f : Int → Option Err)
    (sched : List Label) (hw : 0 < workers) (hiter : 0 ≤ iterations)
    (hbound : iterations + min workers iterations ≤ 2 ^ 31)
    (hf : ∀ j, f j = none) :
    ((callInvoked (runGo workers iterations (some f)) sched).Nodup ∧
      ∀ v ∈ callInvoked (runGo workers iterations (some f)) sched,
        0 ≤ v ∧ v < iterations) ∧
    (∀ r, callResult (runGo workers iterations (some f)) sched = some r →
      r = none ∧
        ((callInvoked (runGo workers iterations (some f)) sched : List Int)
            : Multiset Int)
          = indexRange iterations) ∧
    (∃ sched2 : List Label,
      callResult (runGo workers iterations (some f)) sched2 ≠ none) := by
  by_cases hzero : iterations = 0
  · subst hzero
    have hrg : runGo workers 0 (some f) = SetupResult.early none := by
      show runWithContextGo (some ParentCtx.background) workers 0
        (some (fun _ j => f j)) = _
      exact rwc_zeroIterations ParentCtx.background workers _ hw
    rw [hrg]
    refine ⟨⟨List.nodup_nil, ?_⟩, ?_, ⟨[], ?_⟩⟩
    · intro v hv
      exact absurd hv (List.not_mem_nil v)
    · intro r hr
      have h2 : some (none : Option Err) = some r := hr
      obtain rfl := Option.some.inj h2
      exact ⟨rfl, rfl⟩
    · simp [callResult_early]
  · have hi1 : 1 ≤ iterations := by omega
    have hmin : (if workers > iterations then iterations else workers)
        = min workers iterations := by
      rcases le_or_lt workers iterations with h2 | h2
      · rw [if_neg (by omega), min_eq_left h2]
      · rw [if_pos h2, min_eq_right (by omega)]
    have hrg : runGo workers iterations (some f)
        = SetupResult.spawn ⟨iterations, fun _ j => f j, ParentCtx.background⟩
            (initConfig (if workers > iterations then iterations
              else workers).toNat) := by
      show runWithContextGo (some ParentCtx.background) workers iterations
        (some (fun _ j => f j)) = _
      exact rwc_spawn ParentCtx.background workers iterations _ hw hi1 rfl
    have hminpos : 1 ≤ min workers iterations := by
      rcases le_or_lt workers iterations with h2 | h2
      · rw [min_eq_left h2]; omega
      · rw [min_eq_right (by omega)]; omega
    have hminle : min workers iterations ≤ iterations := min_le_right _ _
    set wN := (if workers > iterations then iterations else workers).toNat with hwdef
    have hwcast : (wN : Int) = min workers iterations := by
      rw [hwdef, hmin]
      omega
    have hw1 : 1 ≤ wN := by omega
    have hwNle : (wN : Int) ≤ iterations := by omega
    have hbound2 : iterations + wN ≤ 2 ^ 31 := by omega
    set P : Params := ⟨iterations, fun _ j => f j, ParentCtx.background⟩ with hPdef
    have hAS : AllSuccess P.fn := fun b j => hf j
    have hbg : P.parent = ParentCtx.background := rfl
    have hinit : NoKillInv P wN (initConfig wN) :=
      nokill_init P wN hw1 hwNle hbound2
    have hrun : ∀ sched3 : List Label,
        NoKillInv P wN (sched_run P (initConfig wN) sched3) := fun sched3 =>
      nokill_run P wN hAS hbg hw1 hwNle hbound2 sched3 (initConfig wN) hinit
    refine ⟨?_, ?_, ?_⟩
    · rw [hrg, callInvoked_spawn]
      exact nokill_safety P wN _ (hrun sched)
    · intro r hr
      rw [hrg, callResult_spawn] at hr
      have hres := (hrun sched).res r hr
      refine ⟨hres.1, ?_⟩
      rw [hrg, callInvoked_spawn]
      exact nokill_final P wN _ (hrun sched) hw1 (show (0:Int) ≤ iterations by omega) hres.2
    · refine ⟨greedySched P (mu P wN (initConfig wN)) (initConfig wN), ?_⟩
      rw [hrg, callResult_spawn]
      exact greedy_completes P wN hAS hbg hw1 hwNle hbound2
        (mu P wN (initConfig wN)) (initConfig wN) hinit (le_refl _)

/-! ### The all-success invariant (arbitrary parent) -/

theorem as_preserved (P : Params) (s : Config) (L : Label) (hAS : AllSuccess P.fn)
    (h : ASInv P s) : ASInv P (step P s L) := by
  cases L with
  | work i =>
    cases hg : s.workers.get? i with
    | none =>
      have hstep : step P s (Label.work i) = s := by
        simp only [step]
        rw [hg]
      rw [hstep]
      exact h
    | some st =>
      cases st with
      | run j =>
        by_cases hj : j < P.iterations
        · have hstep : step P s (Label.work i)
              = { s with invoked := s.invoked ++ [j],
                         workers := s.workers.set i WStatus.next } := by
            simp only [step, hg]
            unfold workStep
            rw [if_pos hj, hAS]
          rw [hstep]
          exact ⟨h.fe, h.ic, h.ko, h.k2, h.k3, h.res⟩
        · have hstep : step P s (Label.work i)
              = { s with retired := s.retired ++ [j],
                         workers := s.workers.set i WStatus.done } := by
            simp only [step, hg]
            unfold workStep
            rw [if_neg hj]
          rw [hstep]
          exact ⟨h.fe, h.ic, h.ko, h.k2, h.k3, h.res⟩
      | next =>
        have hstep : step P s (Label.work i) = s := by
          simp only [step]
          rw [hg]
        rw [hstep]
        exact h
      | done =>
        have hstep : step P s (Label.work i) = s := by
          simp only [step]
          rw [hg]
        rw [hstep]
        exact h
  | claim i =>
    cases hg : s.workers.get? i with
    | none =>
      have hstep : step P s (Label.claim i) = s := by
        simp only [step]
        rw [hg]
      rw [hstep]
      exact h
    | some st =>
      cases st with
      | run j =>
        have hstep : step P s (Label.claim i) = s := by
          simp only [step]
          rw [hg]
        rw [hstep]
        exact h
      | next =>
        have hstep : step P s (Label.claim i)
            = { s with cursor := wrap32 (s.cursor + 1),
                       workers := s.workers.set i (WStatus.run (wrap32 (s.cursor + 1))) } := by
          simp only [step, hg]
        rw [hstep]
        exact ⟨h.fe, h.ic, h.ko, h.k2, h.k3, h.res⟩
      | done =>
        have hstep : step P s (Label.claim i) = s := by
          simp only [step]
          rw [hg]
        rw [hstep]
        exact h
  | pdone =>
    cases hp : P.parent with
    | pending b e =>
      cases b with
      | true =>
        have hstep : step P s Label.pdone = { s with parentDone := true } := by
          simp only [step, hp]
        rw [hstep]
        refine ⟨h.fe, h.ic, h.ko, ?_, h.k3, h.res⟩
        intro h2
        exact ⟨(h.k2 h2).1, rfl⟩
      | false =>
        have hstep : step P s Label.pdone = s := by
          simp only [step, hp]
        rw [hstep]
        exact h
    | background =>
      have hstep : step P s Label.pdone = s := by
        simp only [step, hp]
      rw [hstep]
      exact h
    | alreadyDone e =>
      have hstep : step P s Label.pdone = s := by
        simp only [step, hp]
      rw [hstep]
      exact h
  | watch =>
    by_cases hc : hasWatcher P = true ∧ (s.internalCancel = true ∨ s.parentDone = true)
        ∧ s.watcherFired = false
    · have hpd : s.parentDone = true := by
        rcases hc.2.1 with h2 | h2
        · rw [h.ic] at h2
          exact absurd h2 (by simp)
        · exact h2
      by_cases hk : s.killOnce = 0
      · have hstep : step P s Label.watch
            = { s with watcherFired := true, killOnce := 2,
                       cursor := wrap32 P.iterations,
                       settledBy := some Cause.external } := by
          simp only [step]
          rw [if_pos hc, if_pos hk]
        rw [hstep]
        refine ⟨h.fe, h.ic, Or.inr (Or.inl rfl), ?_, ?_, ?_⟩
        · intro _
          exact ⟨rfl, hpd⟩
        · intro h2
          exact absurd h2 (by simp)
        · intro r hr
          rcases h.res r hr with h2 | h2
          · exact Or.inl h2
          · exact Or.inr ⟨h2.1, rfl⟩
      · have hstep : step P s Label.watch = { s with watcherFired := true } := by
          simp only [step]
          rw [if_pos hc, if_neg hk]
        rw [hstep]
        refine ⟨h.fe, h.ic, h.ko, ?_, h.k3, ?_⟩
        · intro h2
          exact ⟨rfl, (h.k2 h2).2⟩
        · intro r hr
          rcases h.res r hr with h2 | h2
          · exact Or.inl h2
          · exact Or.inr ⟨h2.1, rfl⟩
    · have hstep : step P s Label.watch = s := by
        simp only [step]
        rw [if_neg hc]
      rw [hstep]
      exact h
  | resolve =>
    by_cases hcond : s.result = none ∧ allDone s.workers = true
    · by_cases hW : hasWatcher P = false
      · have hstep : step P s Label.resolve = { s with result := some none } := by
          show resolveStep P s = _
          unfold resolveStep
          rw [if_pos hcond, h.fe, if_pos hW]
        rw [hstep]
        refine ⟨h.fe, h.ic, h.ko, h.k2, ?_, ?_⟩
        · intro _
          rfl
        · intro r hr
          have h2 : some (none : Option Err) = some r := hr
          obtain rfl := Option.some.inj h2
          exact Or.inl rfl
      · by_cases hk : s.killOnce = 0
        · have hstep : step P s Label.resolve
              = { s with killOnce := 3, result := some none } := by
            show resolveStep P s = _
            unfold resolveStep
            rw [if_pos hcond, h.fe, if_neg hW, if_pos hk]
          rw [hstep]
          refine ⟨h.fe, h.ic, Or.inr (Or.inr rfl), ?_, ?_, ?_⟩
          · intro h2
            exact absurd h2 (by simp)
          · intro _
            rfl
          · intro r hr
            have h2 : some (none : Option Err) = some r := hr
            obtain rfl := Option.some.inj h2
            exact Or.inl rfl
        · have hk2 : s.killOnce = 2 := by
            rcases h.ko with h2 | h2 | h2
            · exact absurd h2 hk
            · exact h2
            · have := h.k3 h2
              rw [hcond.1] at this
              exact absurd this (by simp)
          have hstep : step P s Label.resolve
              = { s with result := some (ctxErr P s) } := by
            show resolveStep P s = _
            unfold resolveStep
            rw [if_pos hcond, h.fe, if_neg hW, if_neg hk]
          rw [hstep]
          have hctx : ctxErr P s = some (parentTermErr P) := by
            unfold ctxErr
            rw [h.ic, if_neg (by simp), (h.k2 hk2).2]
            rfl
          refine ⟨h.fe, h.ic, h.ko, h.k2, ?_, ?_⟩
          · intro h2
            have h3 : s.killOnce = 3 := h2
            rw [hk2] at h3
            exact absurd h3 (by omega)
          · intro r hr
            have h2 : some (ctxErr P s) = some r := hr
            obtain rfl := Option.some.inj h2
            rw [hctx]
            exact Or.inr ⟨rfl, (h.k2 hk2).1⟩
    · have hstep : step P s Label.resolve = s := by
        show resolveStep P s = _
        unfold resolveStep
        rw [if_neg hcond]
      rw [hstep]
      exact h

theorem as_init (P : Params) (w : Nat) : ASInv P (initConfig w) := by
  refine ⟨rfl, rfl, Or.inl rfl, ?_, ?_, ?_⟩
  · intro h2
    exact absurd h2 (by simp [initConfig])
  · intro h2
    exact absurd h2 (by simp [initConfig])
  · intro r hr
    exact absurd hr (by simp [initConfig])

theorem as_run (P : Params) (hAS : AllSuccess P.fn) :
    ∀ (sched : List Label) (s : Config), ASInv P s → ASInv P (sched_run P s sched)
  | [], s, h => h
  | L :: rest, s, h => by
    rw [sched_run_cons]
    exact as_run P hAS rest (step P s L) (as_preserved P s L hAS h)

/-- C2 (amended): for a run of `RunWithContext` with valid inputs and a
live parent in which all units succeed, the result is `nil` or the
parent's termination error — never a unit error; and it is `nil` whenever
the external-completion watcher has not run by the end of the schedule
(in particular whenever the final `Running → Resolved` transition executes
before the watcher reacts to the parent's completion).  Completion of the
parent strictly after all units finish does not by itself guarantee `nil`:
the watcher may still win the final race (see the counterexample). -/
theorem c2_amended_resolution (p : ParentCtx) (workers iterations : Int) (g : MFn)
    (sched : List Label) (r : Option Err) (hw : 0 < workers) (hi : 0 ≤ iterations)
    (hlive : isLive p = true) (hAS : AllSuccess g)
    (hr : callResult (runWithContextGo (some p) workers iterations (some g)) sched
      = some r) :
    (r = none ∨ r = some (parentTermErr ⟨iterations, g, p⟩)) ∧
    (callWatcherFired (runWithContextGo (some p) workers iterations (some g)) sched
        = false → r = none) := by
  by_cases hzero : iterations = 0
  · subst hzero
    rw [rwc_zeroIterations p workers g hw] at hr ⊢
    have h2 : some (none : Option Err) = some r := hr
    obtain rfl := Option.some.inj h2
    exact ⟨Or.inl rfl, fun _ => rfl⟩
  · have hi1 : 1 ≤ iterations := by omega
    rw [rwc_spawn p workers iterations g hw hi1 hlive] at hr ⊢
    rw [callResult_spawn] at hr
    rw [callWatcherFired_spawn]
    have hinv := as_run ⟨iterations, g, p⟩ hAS sched
      (initConfig (if workers > iterations then iterations else workers).toNat)
      (as_init ⟨iterations, g, p⟩
        (if workers > iterations then iterations else workers).toNat)
    have hres := hinv.res r hr
    constructor
    · rcases hres with h2 | h2
      · exact Or.inl h2
      · exact Or.inr h2.1
    · intro hwf
      rcases hres with h2 | h2
      · exact h2
      · rw [h2.2] at hwf
        exact absurd hwf (by simp)

/-- C2 (counterexample): `workers = 1`, `iterations = 1`, every unit
succeeds, and the parent (termination error `user 7`) completes strictly
after the only unit has finished; yet under the exhibited schedule the
watcher wins the final `killOnce` race and `RunWithContext` returns the
parent's termination error, not `nil` — refuting the claim as stated. -/
theorem c2_counterexample :
    AllSuccess allNoneF ∧
    parentAfterUnitsB ⟨1, allNoneF, ParentCtx.pending true (Err.user 7)⟩ (initConfig 1)
      [Label.work 0, Label.claim 0, Label.work 0, Label.pdone, Label.watch,
        Label.resolve] = true ∧
    callResult (runWithContextGo (some (ParentCtx.pending true (Err.user 7))) 1 1
        (some allNoneF))
      [Label.work 0, Label.claim 0, Label.work 0, Label.pdone, Label.watch,
        Label.resolve] = some (some (Err.user 7)) ∧
    (some (some (Err.user 7)) : Option (Option Err)) ≠ some none := by
  refine ⟨fun b j => rfl, by decide, by decide, by decide⟩

/-! ### The exactly-once kill state machine (arbitrary mapping function) -/

theorem head?_append_of_some {α : Type} {l l2 : List α} {x : α}
    (h : l.head? = some x) : (l ++ l2).head? = some x := by
  cases l with
  | nil => simp at h
  | cons a rest => simpa using h

theorem killStep_win (P : Params) (sI : Config) (i : Nat) (j : Int) (e : Err)
    (hk : sI.killOnce = 0) :
    killStep P sI i j e
      = { sI with killOnce := 1, cursor := wrap32 P.iterations,
                  internalCancel := true, firsterr := some e,
                  settledBy := some (Cause.localFail j e),
                  failed := sI.failed ++ [(j, e)],
                  workers := sI.workers.set i WStatus.done } := by
  unfold killStep
  rw [if_pos hk]

theorem killStep_lose (P : Params) (sI : Config) (i : Nat) (j : Int) (e : Err)
    (hk : ¬ sI.killOnce = 0) :
    killStep P sI i j e
      = { sI with failed := sI.failed ++ [(j, e)],
                  workers := sI.workers.set i WStatus.done } := by
  unfold killStep
  rw [if_neg hk]

theorem kinv_preserved (P : Params) (s : Config) (L : Label) (h : KInv P s) :
    KInv P (step P s L) := by
  cases L with
  | work i =>
    cases hg : s.workers.get? i with
    | none =>
      have hstep : step P s (Label.work i) = s := by
        simp only [step]
        rw [hg]
      rw [hstep]
      exact h
    | some st =>
      cases st with
      | run j =>
        by_cases hj : j < P.iterations
        · cases hfn : P.fn (s.internalCancel || s.parentDone) j with
          | none =>
            have hstep : step P s (Label.work i)
                = { s with invoked := s.invoked ++ [j],
                           workers := s.workers.set i WStatus.next } := by
              simp only [step, hg]
              unfold workStep
              rw [if_pos hj, hfn]
            rw [hstep]
            refine ⟨h.kor, h.k0, h.k1, h.loc, h.k2, h.k3, ?_, ?_, h.fne⟩
            · intro r hr
              have h2 := get_of_allDone (h.resAll r hr) hg
              simp at h2
            · intro r hr
              have h2 := get_of_allDone (h.resAll r hr) hg
              simp at h2
          | some e =>
            have hstep : step P s (Label.work i)
                = killStep P { s with invoked := s.invoked ++ [j] } i j e := by
              simp only [step, hg]
              unfold workStep
              rw [if_pos hj, hfn]
            rw [hstep]
            by_cases hk : s.killOnce = 0
            · rw [killStep_win P { s with invoked := s.invoked ++ [j] } i j e hk]
              obtain ⟨hfe0, hic0, hfl0, hsb0⟩ := h.k0 hk
              refine ⟨Or.inr (Or.inl rfl), ?_, ?_, ?_, ?_, ?_, ?_, ?_, ?_⟩
              · intro h0
                have h1 : (1 : Nat) = 0 := h0
                exact absurd h1 (by omega)
              · intro _
                exact ⟨j, e, rfl⟩
              · intro j2 e2 hset
                have hset2 : some (Cause.localFail j e) = some (Cause.localFail j2 e2) :=
                  hset
                injection hset2 with h2
                injection h2 with h3 h4
                subst h3
                subst h4
                refine ⟨rfl, rfl, ?_⟩
                show (s.failed ++ [(j, e)]).head? = some (j, e)
                rw [hfl0]
                rfl
              · intro h2
                have h3 : (1 : Nat) = 2 := h2
                exact absurd h3 (by omega)
              · intro h3
                have h4 : (1 : Nat) = 3 := h3
                exact absurd h4 (by omega)
              · intro r hr
                have h2 := get_of_allDone (h.resAll r hr) hg
                simp at h2
              · intro r hr
                have h2 := get_of_allDone (h.resAll r hr) hg
                simp at h2
              · intro _
                exact Or.inl rfl
            · rw [killStep_lose P { s with invoked := s.invoked ++ [j] } i j e hk]
              refine ⟨h.kor, ?_, h.k1, ?_, h.k2, ?_, ?_, ?_, ?_⟩
              · intro h0
                exact absurd h0 hk
              · intro j2 e2 hset
                obtain ⟨h1, h2, h3⟩ := h.loc j2 e2 hset
                exact ⟨h1, h2, head?_append_of_some h3⟩
              · intro h3
                exact ⟨(h.k3 h3).1, (h.k3 h3).2⟩
              · intro r hr
                have h2 := get_of_allDone (h.resAll r hr) hg
                simp at h2
              · intro r hr
                have h2 := get_of_allDone (h.resAll r hr) hg
                simp at h2
              · intro _
                rcases h.kor with h0 | h1 | h2 | h3
                · exact absurd h0 hk
                · exact Or.inl h1
                · exact Or.inr h2
                · have hres := (h.k3 h3).2
                  have h4 := get_of_allDone (h.resAll none hres) hg
                  simp at h4
        · have hstep : step P s (Label.work i)
              = { s with retired := s.retired ++ [j],
                         workers := s.workers.set i WStatus.done } := by
            simp only [step, hg]
            unfold workStep
            rw [if_neg hj]
          rw [hstep]
          refine ⟨h.kor, h.k0, h.k1, h.loc, h.k2, h.k3, ?_, ?_, h.fne⟩
          · intro r hr
            have h2 := get_of_allDone (h.resAll r hr) hg
            simp at h2
          · intro r hr
            have h2 := get_of_allDone (h.resAll r hr) hg
            simp at h2
      | next =>
        have hstep : step P s (Label.work i) = s := by
          simp only [step]
          rw [hg]
        rw [hstep]
        exact h
      | done =>
        have hstep : step P s (Label.work i) = s := by
          simp only [step]
          rw [hg]
        rw [hstep]
        exact h
  | claim i =>
    cases hg : s.workers.get? i with
    | none =>
      have hstep : step P s (Label.claim i) = s := by
        simp only [step]
        rw [hg]
      rw [hstep]
      exact h
    | some st =>
      cases st with
      | run j =>
        have hstep : step P s (Label.claim i) = s := by
          simp only [step]
          rw [hg]
        rw [hstep]
        exact h
      | next =>
        have hstep : step P s (Label.claim i)
            = { s with cursor := wrap32 (s.cursor + 1),
                       workers := s.workers.set i (WStatus.run (wrap32 (s.cursor + 1))) } := by
          simp only [step, hg]
        rw [hstep]
        refine ⟨h.kor, h.k0, h.k1, h.loc, h.k2, h.k3, ?_, ?_, h.fne⟩
        · intro r hr
          have h2 := get_of_allDone (h.resAll r hr) hg
          simp at h2
        · intro r hr
          have h2 := get_of_allDone (h.resAll r hr) hg
          simp at h2
      | done =>
        have hstep : step P s (Label.claim i) = s := by
          simp only [step]
          rw [hg]
        rw [hstep]
        exact h
  | pdone =>
    cases hp : P.parent with
    | pending b e =>
      cases b with
      | true =>
        have hstep : step P s Label.pdone = { s with parentDone := true } := by
          simp only [step, hp]
        rw [hstep]
        exact ⟨h.kor, h.k0, h.k1, h.loc, h.k2, h.k3, h.resAll, h.resFe, h.fne⟩
      | false =>
        have hstep : step P s Label.pdone = s := by
          simp only [step, hp]
        rw [hstep]
        exact h
    | background =>
      have hstep : step P s Label.pdone = s := by
        simp only [step, hp]
      rw [hstep]
      exact h
    | alreadyDone e =>
      have hstep : step P s Label.pdone = s := by
        simp only [step, hp]
      rw [hstep]
      exact h
  | watch =>
    by_cases hc : hasWatcher P = true ∧ (s.internalCancel = true ∨ s.parentDone = true)
        ∧ s.watcherFired = false
    · by_cases hk : s.killOnce = 0
      · have hstep : step P s Label.watch
            = { s with watcherFired := true, killOnce := 2,
                       cursor := wrap32 P.iterations,
                       settledBy := some Cause.external } := by
          simp only [step]
          rw [if_pos hc, if_pos hk]
        rw [hstep]
        obtain ⟨hfe0, hic0, hfl0, hsb0⟩ := h.k0 hk
        refine ⟨Or.inr (Or.inr (Or.inl rfl)), ?_, ?_, ?_, ?_, ?_, h.resAll, h.resFe, ?_⟩
        · intro h0
          have h1 : (2 : Nat) = 0 := h0
          exact absurd h1 (by omega)
        · intro h1
          have h2 : (2 : Nat) = 1 := h1
          exact absurd h2 (by omega)
        · intro j2 e2 hset
          have hset2 : some Cause.external = some (Cause.localFail j2 e2) := hset
          injection hset2 with h2
          exact Cause.noConfusion h2
        · intro _
          exact ⟨rfl, hfe0, hc.1⟩
        · intro h3
          have h4 : (2 : Nat) = 3 := h3
          exact absurd h4 (by omega)
        · intro hne
          exact absurd hfl0 hne
      · have hstep : step P s Label.watch = { s with watcherFired := true } := by
          simp only [step]
          rw [if_pos hc, if_neg hk]
        rw [hstep]
        exact ⟨h.kor, h.k0, h.k1, h.loc, h.k2, h.k3, h.resAll, h.resFe, h.fne⟩
    · have hstep : step P s Label.watch = s := by
        simp only [step]
        rw [if_neg hc]
      rw [hstep]
      exact h
  | resolve =>
    by_cases hcond : s.result = none ∧ allDone s.workers = true
    · cases hfe : s.firsterr with
      | some e =>
        have hstep : step P s Label.resolve = { s with result := some (some e) } := by
          show resolveStep P s = _
          unfold resolveStep
          rw [if_pos hcond, hfe]
        rw [hstep]
        refine ⟨h.kor, h.k0, h.k1, h.loc, h.k2, ?_, ?_, ?_, h.fne⟩
        · intro h3
          have := (h.k3 h3).1
          rw [hfe] at this
          exact absurd this (by simp)
        · intro r hr
          exact hcond.2
        · intro r hr e2 hfe2
          have h2 : some (some e) = some r := hr
          obtain rfl := Option.some.inj h2
          have hfe3 : s.firsterr = some e2 := hfe2
          rw [hfe] at hfe3
          obtain rfl := Option.some.inj hfe3
          rfl
      | none =>
        by_cases hW : hasWatcher P = false
        · have hstep : step P s Label.resolve = { s with result := some none } := by
            show resolveStep P s = _
            unfold resolveStep
            rw [if_pos hcond, hfe, if_pos hW]
          rw [hstep]
          refine ⟨h.kor, h.k0, h.k1, h.loc, h.k2, ?_, ?_, ?_, h.fne⟩
          · intro h3
            exact ⟨(h.k3 h3).1, rfl⟩
          · intro r hr
            exact hcond.2
          · intro r hr e2 hfe2
            have hfe3 : s.firsterr = some e2 := hfe2
            rw [hfe] at hfe3
            exact absurd hfe3 (by simp)
        · by_cases hk : s.killOnce = 0
          · have hstep : step P s Label.resolve
                = { s with killOnce := 3, result := some none } := by
              show resolveStep P s = _
              unfold resolveStep
              rw [if_pos hcond, hfe, if_neg hW, if_pos hk]
            rw [hstep]
            obtain ⟨hfe0, hic0, hfl0, hsb0⟩ := h.k0 hk
            refine ⟨Or.inr (Or.inr (Or.inr rfl)), ?_, ?_, ?_, ?_, ?_, ?_, ?_, ?_⟩
            · intro h0
              have h1 : (3 : Nat) = 0 := h0
              exact absurd h1 (by omega)
            · intro h1
              have h2 : (3 : Nat) = 1 := h1
              exact absurd h2 (by omega)
            · intro j2 e2 hset
              have hset2 : s.settledBy = some (Cause.localFail j2 e2) := hset
              rw [hsb0] at hset2
              exact absurd hset2 (by simp)
            · intro h2
              have h3 : (3 : Nat) = 2 := h2
              exact absurd h3 (by omega)
            · intro _
              exact ⟨hfe0, rfl⟩
            · intro r hr
              exact hcond.2
            · intro r hr e2 hfe2
              have hfe3 : s.firsterr = some e2 := hfe2
              rw [hfe] at hfe3
              exact absurd hfe3 (by simp)
            · intro hne
              exact absurd hfl0 hne
          · have hstep : step P s Label.resolve
                = { s with result := some (ctxErr P s) } := by
              show resolveStep P s = _
              unfold resolveStep
              rw [if_pos hcond, hfe, if_neg hW, if_neg hk]
            rw [hstep]
            refine ⟨h.kor, h.k0, h.k1, h.loc, h.k2, ?_, ?_, ?_, h.fne⟩
            · intro h3
              have := (h.k3 h3).2
              rw [hcond.1] at this
              exact absurd this (by simp)
            · intro r hr
              exact hcond.2
            · intro r hr e2 hfe2
              have hfe3 : s.firsterr = some e2 := hfe2
              rw [hfe] at hfe3
              exact absurd hfe3 (by simp)
    · have hstep : step P s Label.resolve = s := by
        show resolveStep P s = _
        unfold resolveStep
        rw [if_neg hcond]
      rw [hstep]
      exact h

theorem kinv_init (P : Params) (w : Nat) : KInv P (initConfig w) := by
  refine ⟨Or.inl rfl, ?_, ?_, ?_, ?_, ?_, ?_, ?_, ?_⟩
  · intro _
    exact ⟨rfl, rfl, rfl, rfl⟩
  · intro h1
    exact absurd h1 (by simp [initConfig])
  · intro j2 e2 hset
    exact absurd hset (by simp [initConfig])
  · intro h2
    exact absurd h2 (by simp [initConfig])
  · intro h3
    exact absurd h3 (by simp [initConfig])
  · intro r hr
    exact absurd hr (by simp [initConfig])
  · intro r hr
    exact absurd hr (by simp [initConfig])
  · intro hne
    exact absurd rfl hne

theorem kinv_run (P : Params) :
    ∀ (sched : List Label) (s : Config), KInv P s → KInv P (sched_run P s sched)
  | [], s, h => h
  | L :: rest, s, h => by
    rw [sched_run_cons]
    exact kinv_run P rest (step P s L) (kinv_preserved P s L h)

theorem callFailed_spawn (P : Params) (c : Config) (sched : List Label) :
    callFailed (SetupResult.spawn P c) sched = (sched_run P c sched).failed := rfl

theorem callSettledBy_spawn (P : Params) (c : Config) (sched : List Label) :
    callSettledBy (SetupResult.spawn P c) sched = (sched_run P c sched).settledBy := rfl

theorem c5_model (P : Params) (w : Nat) (sched : List Label) :
    (∀ j e, (sched_run P (initConfig w) sched).settledBy
        = some (Cause.localFail j e) →
      (sched_run P (initConfig w) sched).failed.head? = some (j, e) ∧
      ∀ r, (sched_run P (initConfig w) sched).result = some r → r = some e) ∧
    (hasWatcher P = false →
      2 ≤ (sched_run P (initConfig w) sched).failed.length →
      ∀ r, (sched_run P (initConfig w) sched).result = some r →
        ∃ j e, (sched_run P (initConfig w) sched).settledBy
            = some (Cause.localFail j e) ∧
          (sched_run P (initConfig w) sched).failed.head? = some (j, e) ∧
          r = some e) := by
  have hinv := kinv_run P sched (initConfig w) (kinv_init P w)
  constructor
  · intro j e hset
    obtain ⟨hk1, hfe, hhead⟩ := hinv.loc j e hset
    exact ⟨hhead, fun r hr => hinv.resFe r hr e hfe⟩
  · intro hW hlen r hr
    have hne : (sched_run P (initConfig w) sched).failed ≠ [] := by
      intro hemp
      rw [hemp] at hlen
      simp at hlen
    rcases hinv.fne hne with h1 | h2
    · obtain ⟨j, e, hset⟩ := hinv.k1 h1
      obtain ⟨hk1, hfe, hhead⟩ := hinv.loc j e hset
      exact ⟨j, e, hset, hhead, hinv.resFe r hr e hfe⟩
    · have hwt := (hinv.k2 h2).2.2
      rw [hW] at hwt
      exact absurd hwt (by simp)

/-- C5: in every run of `RunWithContext` (valid inputs) whose exactly-once
`killOnce` machine was settled by a worker failure, the settling unit is the
first failing invocation, and the run's result is exactly that unit's error
— every later unit error is discarded; in particular for `Run`-style runs
(a parent that can never complete), whenever at least two invocations
return errors the result is exactly the first failing invocation's error. -/
theorem c5_first_error_wins (p : ParentCtx) (workers iterations : Int) (g : MFn)
    (sched : List Label) (hw : 0 < workers) (hi : 1 ≤ iterations)
    (hlive : isLive p = true) :
    (∀ (j : Int) (e : Err),
      callSettledBy (runWithContextGo (some p) workers iterations (some g)) sched
          = some (Cause.localFail j e) →
      (callFailed (runWithContextGo (some p) workers iterations (some g))
          sched).head? = some (j, e) ∧
      ∀ r, callResult (runWithContextGo (some p) workers iterations (some g)) sched
          = some r → r = some e) ∧
    (p = ParentCtx.background →
      2 ≤ (callFailed (runWithContextGo (some p) workers iterations (some g))
          sched).length →
      ∀ r, callResult (runWithContextGo (some p) workers iterations (some g)) sched
          = some r →
        ∃ j e, callSettledBy (runWithContextGo (some p) workers iterations (some g))
              sched = some (Cause.localFail j e) ∧
          (callFailed (runWithContextGo (some p) workers iterations (some g))
              sched).head? = some (j, e) ∧
          r = some e) := by
  rw [rwc_spawn p workers iterations g hw hi hlive, callSettledBy_spawn,
    callFailed_spawn, callResult_spawn]
  constructor
  · exact (c5_model ⟨iterations, g, p⟩
      (if workers > iterations then iterations else workers).toNat sched).1
  · intro hbgp
    subst hbgp
    exact (c5_model ⟨iterations, g, ParentCtx.background⟩
      (if workers > iterations then iterations else workers).toNat sched).2 rfl

/-! ### Bisimulation: background parent vs never-completing parent -/

theorem sim_preserved (N : Int) (g : MFn) (e : Err) (s t : Config) (L : Label)
    (h : SimBgPf s t) :
    SimBgPf (step ⟨N, g, ParentCtx.background⟩ s L)
      (step ⟨N, g, ParentCtx.pending false e⟩ t L) := by
  cases L with
  | work i =>
    cases hg : s.workers.get? i with
    | none =>
      have hgt : t.workers.get? i = none := by rw [← h.ws]; exact hg
      have hstepS : step ⟨N, g, ParentCtx.background⟩ s (Label.work i) = s := by
        simp only [step]
        rw [hg]
      have hstepT : step ⟨N, g, ParentCtx.pending false e⟩ t (Label.work i) = t := by
        simp only [step]
        rw [hgt]
      rw [hstepS, hstepT]
      exact h
    | some st =>
      have hgt : t.workers.get? i = some st := by rw [← h.ws]; exact hg
      cases st with
      | run j =>
        by_cases hj : j < N
        · have harg : (s.internalCancel || s.parentDone)
              = (t.internalCancel || t.parentDone) := by
            rw [h.ic, h.pdS, h.pdT]
          have hfnS : Params.fn ⟨N, g, ParentCtx.background⟩ = g := rfl
          have hfnT : Params.fn ⟨N, g, ParentCtx.pending false e⟩ = g := rfl
          cases hfn : g (t.internalCancel || t.parentDone) j with
          | none =>
            have hstepS : step ⟨N, g, ParentCtx.background⟩ s (Label.work i)
                = { s with invoked := s.invoked ++ [j],
                           workers := s.workers.set i WStatus.next } := by
              simp only [step, hg]
              unfold workStep
              rw [if_pos hj, harg, hfnS, hfn]
            have hstepT : step ⟨N, g, ParentCtx.pending false e⟩ t (Label.work i)
                = { t with invoked := t.invoked ++ [j],
                           workers := t.workers.set i WStatus.next } := by
              simp only [step, hgt]
              unfold workStep
              rw [if_pos hj, hfnT, hfn]
            rw [hstepS, hstepT]
            refine ⟨h.cur, h.fe, h.ic, h.pdS, h.pdT, ?_, h.res, h.koS, ?_, h.k1, h.k0⟩
            · show s.workers.set i WStatus.next = t.workers.set i WStatus.next
              rw [h.ws]
            · rcases h.koT with h2 | h2
              · exact Or.inl h2
              · have := get_of_allDone h2.2.2.2 hgt
                simp at this
          | some e2 =>
            have hstepS : step ⟨N, g, ParentCtx.background⟩ s (Label.work i)
                = killStep ⟨N, g, ParentCtx.background⟩
                    { s with invoked := s.invoked ++ [j] } i j e2 := by
              simp only [step, hg]
              unfold workStep
              rw [if_pos hj, harg, hfnS, hfn]
            have hstepT : step ⟨N, g, ParentCtx.pending false e⟩ t (Label.work i)
                = killStep ⟨N, g, ParentCtx.pending false e⟩
                    { t with invoked := t.invoked ++ [j] } i j e2 := by
              simp only [step, hgt]
              unfold workStep
              rw [if_pos hj, hfnT, hfn]
            rw [hstepS, hstepT]
            by_cases hk : s.killOnce = 0
            · have hkt : t.killOnce = 0 := by
                rcases h.koT with h2 | h2
                · rw [h2, hk]
                · have := get_of_allDone h2.2.2.2 hgt
                  simp at this
              rw [killStep_win ⟨N, g, ParentCtx.background⟩
                  { s with invoked := s.invoked ++ [j] } i j e2 hk,
                killStep_win ⟨N, g, ParentCtx.pending false e⟩
                  { t with invoked := t.invoked ++ [j] } i j e2 hkt]
              refine ⟨rfl, rfl, rfl, h.pdS, h.pdT, ?_, h.res, Or.inr rfl, Or.inl rfl,
                ?_, ?_⟩
              · show s.workers.set i WStatus.done = t.workers.set i WStatus.done
                rw [h.ws]
              · intro _
                exact ⟨rfl, e2, rfl⟩
              · intro h0
                have h1 : (1 : Nat) = 0 := h0
                exact absurd h1 (by omega)
            · have hkt : ¬ t.killOnce = 0 := by
                rcases h.koT with h2 | h2
                · rw [h2]; exact hk
                · exact absurd h2.2.1 hk
              rw [killStep_lose ⟨N, g, ParentCtx.background⟩
                  { s with invoked := s.invoked ++ [j] } i j e2 hk,
                killStep_lose ⟨N, g, ParentCtx.pending false e⟩
                  { t with invoked := t.invoked ++ [j] } i j e2 hkt]
              refine ⟨h.cur, h.fe, h.ic, h.pdS, h.pdT, ?_, h.res, h.koS, ?_, h.k1,
                h.k0⟩
              · show s.workers.set i WStatus.done = t.workers.set i WStatus.done
                rw [h.ws]
              · rcases h.koT with h2 | h2
                · exact Or.inl h2
                · exact absurd h2.2.1 hk
        · have hstepS : step ⟨N, g, ParentCtx.background⟩ s (Label.work i)
              = { s with retired := s.retired ++ [j],
                         workers := s.workers.set i WStatus.done } := by
            simp only [step, hg]
            unfold workStep
            rw [if_neg hj]
          have hstepT : step ⟨N, g, ParentCtx.pending false e⟩ t (Label.work i)
              = { t with retired := t.retired ++ [j],
                         workers := t.workers.set i WStatus.done } := by
            simp only [step, hgt]
            unfold workStep
            rw [if_neg hj]
          rw [hstepS, hstepT]
          refine ⟨h.cur, h.fe, h.ic, h.pdS, h.pdT, ?_, h.res, h.koS, ?_, h.k1, h.k0⟩
          · show s.workers.set i WStatus.done = t.workers.set i WStatus.done
            rw [h.ws]
          · rcases h.koT with h2 | h2
            · exact Or.inl h2
            · have := get_of_allDone h2.2.2.2 hgt
              simp at this
      | next =>
        have hstepS : step ⟨N, g, ParentCtx.background⟩ s (Label.work i) = s := by
          simp only [step]
          rw [hg]
        have hstepT : step ⟨N, g, ParentCtx.pending false e⟩ t (Label.work i) = t := by
          simp only [step]
          rw [hgt]
        rw [hstepS, hstepT]
        exact h
      | done =>
        have hstepS : step ⟨N, g, ParentCtx.background⟩ s (Label.work i) = s := by
          simp only [step]
          rw [hg]
        have hstepT : step ⟨N, g, ParentCtx.pending false e⟩ t (Label.work i) = t := by
          simp only [step]
          rw [hgt]
        rw [hstepS, hstepT]
        exact h
  | claim i =>
    cases hg : s.workers.get? i with
    | none =>
      have hgt : t.workers.get? i = none := by rw [← h.ws]; exact hg
      have hstepS : step ⟨N, g, ParentCtx.background⟩ s (Label.claim i) = s := by
        simp only [step]
        rw [hg]
      have hstepT : step ⟨N, g, ParentCtx.pending false e⟩ t (Label.claim i) = t := by
        simp only [step]
        rw [hgt]
      rw [hstepS, hstepT]
      exact h
    | some st =>
      have hgt : t.workers.get? i = some st := by rw [← h.ws]; exact hg
      cases st with
      | run j =>
        have hstepS : step ⟨N, g, ParentCtx.background⟩ s (Label.claim i) = s := by
          simp only [step]
          rw [hg]
        have hstepT : step ⟨N, g, ParentCtx.pending false e⟩ t (Label.claim i) = t := by
          simp only [step]
          rw [hgt]
        rw [hstepS, hstepT]
        exact h
      | next =>
        have hstepS : step ⟨N, g, ParentCtx.background⟩ s (Label.claim i)
            = { s with cursor := wrap32 (s.cursor + 1),
                       workers := s.workers.set i (WStatus.run (wrap32 (s.cursor + 1))) } := by
          simp only [step, hg]
        have hstepT : step ⟨N, g, ParentCtx.pending false e⟩ t (Label.claim i)
            = { t with cursor := wrap32 (t.cursor + 1),
                       workers := t.workers.set i (WStatus.run (wrap32 (t.cursor + 1))) } := by
          simp only [step, hgt]
        rw [hstepS, hstepT]
        refine ⟨?_, h.fe, h.ic, h.pdS, h.pdT, ?_, h.res, h.koS, ?_, h.k1, h.k0⟩
        · show wrap32 (s.cursor + 1) = wrap32 (t.cursor + 1)
          rw [h.cur]
        · show s.workers.set i (WStatus.run (wrap32 (s.cursor + 1)))
            = t.workers.set i (WStatus.run (wrap32 (t.cursor + 1)))
          rw [h.ws, h.cur]
        · rcases h.koT with h2 | h2
          · exact Or.inl h2
          · have := get_of_allDone h2.2.2.2 hgt
            simp at this
      | done =>
        have hstepS : step ⟨N, g, ParentCtx.background⟩ s (Label.claim i) = s := by
          simp only [step]
          rw [hg]
        have hstepT : step ⟨N, g, ParentCtx.pending false e⟩ t (Label.claim i) = t := by
          simp only [step]
          rw [hgt]
        rw [hstepS, hstepT]
        exact h
  | pdone =>
    have hstepS : step ⟨N, g, ParentCtx.background⟩ s Label.pdone = s := rfl
    have hstepT : step ⟨N, g, ParentCtx.pending false e⟩ t Label.pdone = t := rfl
    rw [hstepS, hstepT]
    exact h
  | watch =>
    have hstepS : step ⟨N, g, ParentCtx.background⟩ s Label.watch = s := by
      simp only [step]
      rw [if_neg]
      rintro ⟨hw1, _⟩
      exact absurd hw1 (by simp [hasWatcher])
    rw [hstepS]
    by_cases hct : (t.internalCancel = true ∨ t.parentDone = true)
        ∧ t.watcherFired = false
    · have hict : t.internalCancel = true := by
        rcases hct.1 with h2 | h2
        · exact h2
        · rw [h.pdT] at h2
          exact absurd h2 (by simp)
      have hics : s.internalCancel = true := by rw [h.ic]; exact hict
      have hks : ¬ s.killOnce = 0 := by
        intro h0
        have := (h.k0 h0).2
        rw [hics] at this
        exact absurd this (by simp)
      have hkt : ¬ t.killOnce = 0 := by
        rcases h.koT with h2 | h2
        · rw [h2]; exact hks
        · exact absurd h2.2.1 hks
      have hstepT : step ⟨N, g, ParentCtx.pending false e⟩ t Label.watch
          = { t with watcherFired := true } := by
        simp only [step]
        rw [if_pos ⟨rfl, hct.1, hct.2⟩, if_neg hkt]
      rw [hstepT]
      refine ⟨h.cur, h.fe, h.ic, h.pdS, h.pdT, h.ws, h.res, h.koS, ?_, h.k1, h.k0⟩
      rcases h.koT with h2 | h2
      · exact Or.inl h2
      · exact absurd h2.2.1 hks
    · have hstepT : step ⟨N, g, ParentCtx.pending false e⟩ t Label.watch = t := by
        simp only [step]
        rw [if_neg]
        rintro ⟨_, hc2, hc3⟩
        exact hct ⟨hc2, hc3⟩
      rw [hstepT]
      exact h
  | resolve =>
    by_cases hcond : s.result = none ∧ allDone s.workers = true
    · have hcondT : t.result = none ∧ allDone t.workers = true := by
        rw [← h.res, ← h.ws]
        exact hcond
      cases hfe : s.firsterr with
      | some e2 =>
        have hfet : t.firsterr = some e2 := by rw [← h.fe]; exact hfe
        have hstepS : step ⟨N, g, ParentCtx.background⟩ s Label.resolve
            = { s with result := some (some e2) } := by
          show resolveStep _ s = _
          unfold resolveStep
          rw [if_pos hcond, hfe]
        have hstepT : step ⟨N, g, ParentCtx.pending false e⟩ t Label.resolve
            = { t with result := some (some e2) } := by
          show resolveStep _ t = _
          unfold resolveStep
          rw [if_pos hcondT, hfet]
        rw [hstepS, hstepT]
        refine ⟨h.cur, h.fe, h.ic, h.pdS, h.pdT, h.ws, rfl, h.koS, ?_, h.k1, h.k0⟩
        rcases h.koT with h2 | h2
        · exact Or.inl h2
        · rw [hcondT.1] at h2
          exact absurd h2.2.2.1.symm (by simp)
      | none =>
        have hfet : t.firsterr = none := by rw [← h.fe]; exact hfe
        have hstepS : step ⟨N, g, ParentCtx.background⟩ s Label.resolve
            = { s with result := some none } := by
          show resolveStep _ s = _
          unfold resolveStep
          rw [if_pos hcond, hfe,
            if_pos (show hasWatcher (⟨N, g, ParentCtx.background⟩ : Params) = false
              from rfl)]
        rcases h.koS with hk0 | hk1
        · have hkt : t.killOnce = 0 := by
            rcases h.koT with h2 | h2
            · rw [h2, hk0]
            · rw [hcondT.1] at h2
              exact absurd h2.2.2.1.symm (by simp)
          have hstepT : step ⟨N, g, ParentCtx.pending false e⟩ t Label.resolve
              = { t with killOnce := 3, result := some none } := by
            show resolveStep _ t = _
            unfold resolveStep
            rw [if_pos hcondT, hfet, if_neg (by simp [hasWatcher]), if_pos hkt]
          rw [hstepS, hstepT]
          refine ⟨h.cur, h.fe, h.ic, h.pdS, h.pdT, h.ws, rfl, Or.inl hk0,
            Or.inr ⟨rfl, hk0, rfl, hcondT.2⟩, h.k1, h.k0⟩
        · obtain ⟨hic1, e3, hfe3⟩ := h.k1 hk1
          rw [hfe] at hfe3
          exact absurd hfe3 (by simp)
    · have hcondT : ¬ (t.result = none ∧ allDone t.workers = true) := by
        rw [← h.res, ← h.ws]
        exact hcond
      have hstepS : step ⟨N, g, ParentCtx.background⟩ s Label.resolve = s := by
        show resolveStep _ s = _
        unfold resolveStep
        rw [if_neg hcond]
      have hstepT : step ⟨N, g, ParentCtx.pending false e⟩ t Label.resolve = t := by
        show resolveStep _ t = _
        unfold resolveStep
        rw [if_neg hcondT]
      rw [hstepS, hstepT]
      exact h

theorem sim_init (w : Nat) : SimBgPf (initConfig w) (initConfig w) := by
  refine ⟨rfl, rfl, rfl, rfl, rfl, rfl, rfl, Or.inl rfl, Or.inl rfl, ?_, ?_⟩
  · intro h1
    have h2 : (0 : Nat) = 1 := h1
    exact absurd h2 (by omega)
  · intro _
    exact ⟨rfl, rfl⟩

theorem sim_run (N : Int) (g : MFn) (e : Err) :
    ∀ (sched : List Label) (s t : Config), SimBgPf s t →
      SimBgPf (sched_run ⟨N, g, ParentCtx.background⟩ s sched)
        (sched_run ⟨N, g, ParentCtx.pending false e⟩ t sched)
  | [], s, t, h => h
  | L :: rest, s, t, h => by
    rw [sched_run_cons, sched_run_cons]
    exact sim_run N g e rest _ _ (sim_preserved N g e s t L h)

/-- C6: for every `workers`, `iterations` and non-nil mapping function,
`Run` is the literal delegation of `RunWithContext` to
`context.Background()` with the wrapped function (which discards the
context argument), and its result under every schedule coincides with that
of `RunWithContext` on any supplied parent context whose `Done` channel
never closes. -/
theorem c6_run_equiv_never_completing (workers iterations : Int)
    (f : Int → Option Err) (e : Err) (sched : List Label) :
    runGo workers iterations (some f)
      = runWithContextGo (some ParentCtx.background) workers iterations
          (some (fun _ j => f j)) ∧
    callResult (runGo workers iterations (some f)) sched
      = callResult (runWithContextGo (some (ParentCtx.pending false e)) workers
          iterations (some (fun _ j => f j))) sched := by
  refine ⟨rfl, ?_⟩
  show callResult (runWithContextGo (some ParentCtx.background) workers iterations
    (some (fun _ j => f j))) sched = _
  by_cases hw0 : workers ≤ 0
  · rw [rwc_invalidWorkers (some ParentCtx.background) workers iterations _ hw0,
      rwc_invalidWorkers (some (ParentCtx.pending false e)) workers iterations _ hw0]
  · have hw : 0 < workers := by omega
    by_cases hi0 : iterations < 0
    · rw [rwc_invalidIterations (some ParentCtx.background) workers iterations _ hw hi0,
        rwc_invalidIterations (some (ParentCtx.pending false e)) workers iterations _
          hw hi0]
    · by_cases hz : iterations = 0
      · subst hz
        rw [rwc_zeroIterations ParentCtx.background workers _ hw,
          rwc_zeroIterations (ParentCtx.pending false e) workers _ hw]
      · have hi1 : 1 ≤ iterations := by omega
        rw [rwc_spawn ParentCtx.background workers iterations _ hw hi1 rfl,
          rwc_spawn (ParentCtx.pending false e) workers iterations _ hw hi1 rfl,
          callResult_spawn, callResult_spawn]
        exact (sim_run iterations (fun _ j => f j) e sched
          (initConfig (if workers > iterations then iterations else workers).toNat)
          (initConfig (if workers > iterations then iterations else workers).toNat)
          (sim_init _)).res

/-! ### Concrete witnesses -/

theorem c1_amended_exactly_once_witness :
    (0 : Int) < 2 ∧ (0 : Int) ≤ 3 ∧ (3 : Int) + min 2 3 ≤ 2 ^ 31 ∧
    (∀ j : Int, allNoneI j = none) ∧
    (((callInvoked (runGo 2 3 (some allNoneI)) []).Nodup ∧
      ∀ v ∈ callInvoked (runGo 2 3 (some allNoneI)) [], 0 ≤ v ∧ v < 3) ∧
    (∀ r, callResult (runGo 2 3 (some allNoneI)) [] = some r →
      r = none ∧
        ((callInvoked (runGo 2 3 (some allNoneI)) [] : List Int) : Multiset Int)
          = indexRange 3) ∧
    (∃ sched2 : List Label, callResult (runGo 2 3 (some allNoneI)) sched2 ≠ none)) :=
  ⟨by norm_num, by norm_num, by norm_num, fun _ => rfl,
    c1_amended_exactly_once 2 3 allNoneI [] (by norm_num) (by norm_num)
      (by norm_num) (fun _ => rfl)⟩

theorem c2_amended_resolution_witness :
    (0 : Int) < 1 ∧ (0 : Int) ≤ 1 ∧
    isLive (ParentCtx.pending true (Err.user 5)) = true ∧
    AllSuccess allNoneF ∧
    callResult (runWithContextGo (some (ParentCtx.pending true (Err.user 5))) 1 1
        (some allNoneF)) [Label.work 0, Label.claim 0, Label.work 0, Label.resolve]
      = some none ∧
    ((none = (none : Option Err) ∨
        none = some (parentTermErr ⟨1, allNoneF, ParentCtx.pending true (Err.user 5)⟩)) ∧
      (callWatcherFired (runWithContextGo (some (ParentCtx.pending true (Err.user 5)))
          1 1 (some allNoneF))
          [Label.work 0, Label.claim 0, Label.work 0, Label.resolve] = false →
        (none : Option Err) = none)) :=
  ⟨by norm_num, by norm_num, by decide, fun _ _ => rfl, by decide,
    c2_amended_resolution (ParentCtx.pending true (Err.user 5)) 1 1 allNoneF
      [Label.work 0, Label.claim 0, Label.work 0, Label.resolve] none
      (by norm_num) (by norm_num) (by decide) (fun _ _ => rfl) (by decide)⟩

theorem c3_validation_order_witness :
    ((0 : Int) ≤ 0 ∧
      runGo 0 5 (some allNoneI) = SetupResult.early (some Err.invalidWorkers) ∧
      runWithContextGo (some ParentCtx.background) 0 5 (some allNoneF)
        = SetupResult.early (some Err.invalidWorkers) ∧
      callInvoked (runGo 0 5 (some allNoneI)) [] = [] ∧
      callInvoked (runWithContextGo (some ParentCtx.background) 0 5 (some allNoneF)) []
        = []) ∧
    ((0 : Int) < 1 ∧ (-1 : Int) < 0 ∧
      runGo 1 (-1) (some allNoneI) = SetupResult.early (some Err.invalidIterations) ∧
      runWithContextGo (some ParentCtx.background) 1 (-1) (some allNoneF)
        = SetupResult.early (some Err.invalidIterations) ∧
      callInvoked (runGo 1 (-1) (some allNoneI)) [] = [] ∧
      callInvoked (runWithContextGo (some ParentCtx.background) 1 (-1)
        (some allNoneF)) [] = []) :=
  ⟨⟨by norm_num,
    c3_validation_order.1 0 5 allNoneI allNoneF (some ParentCtx.background) []
      (by norm_num)⟩,
   ⟨by norm_num, by norm_num,
    c3_validation_order.2 1 (-1) allNoneI allNoneF (some ParentCtx.background) []
      (by norm_num) (by norm_num)⟩⟩

theorem c4_amended_already_done_witness :
    (0 : Int) < 1 ∧ (1 : Int) ≤ 1 ∧
    (callResult (runWithContextGo (some (ParentCtx.alreadyDone (Err.user 2))) 1 1
        (some allNoneF)) [] = some (some (Err.user 2)) ∧
      callInvoked (runWithContextGo (some (ParentCtx.alreadyDone (Err.user 2))) 1 1
        (some allNoneF)) [] = []) :=
  ⟨by norm_num, by norm_num,
    c4_amended_already_done 1 1 allNoneF (Err.user 2) [] (by norm_num) (by norm_num)⟩

theorem c5_first_error_wins_witness :
    (0 : Int) < 2 ∧ (1 : Int) ≤ 2 ∧ isLive ParentCtx.background = true ∧
    ((∀ (j : Int) (e : Err),
      callSettledBy (runWithContextGo (some ParentCtx.background) 2 2 (some allNoneF))
          [] = some (Cause.localFail j e) →
      (callFailed (runWithContextGo (some ParentCtx.background) 2 2 (some allNoneF))
          []).head? = some (j, e) ∧
      ∀ r, callResult (runWithContextGo (some ParentCtx.background) 2 2
          (some allNoneF)) [] = some r → r = some e) ∧
    (ParentCtx.background = ParentCtx.background →
      2 ≤ (callFailed (runWithContextGo (some ParentCtx.background) 2 2
          (some allNoneF)) []).length →
      ∀ r, callResult (runWithContextGo (some ParentCtx.background) 2 2
          (some allNoneF)) [] = some r →
        ∃ j e, callSettledBy (runWithContextGo (some ParentCtx.background) 2 2
              (some allNoneF)) [] = some (Cause.localFail j e) ∧
          (callFailed (runWithContextGo (some ParentCtx.background) 2 2
              (some allNoneF)) []).head? = some (j, e) ∧
          r = some e)) :=
  ⟨by norm_num, by norm_num, by decide,
    c5_first_error_wins ParentCtx.background 2 2 allNoneF [] (by norm_num)
      (by norm_num) (by decide)⟩

theorem c7_zero_iterations_witness :
    (0 : Int) < 3 ∧
    (callResult (runGo 3 0 (some allNoneI)) [] = some none ∧
    callInvoked (runGo 3 0 (some allNoneI)) [] = [] ∧
    callResult (runWithContextGo (some ParentCtx.background) 3 0 (some allNoneF)) []
      = some none ∧
    callInvoked (runWithContextGo (some ParentCtx.background) 3 0 (some allNoneF)) []
      = []) :=
  ⟨by norm_num,
    c7_zero_iterations 3 allNoneI allNoneF ParentCtx.background [] (by norm_num)⟩

theorem c8_zero_precedes_done_witness :
    (0 : Int) < 2 ∧
    (callResult (runWithContextGo (some (ParentCtx.alreadyDone (Err.user 9))) 2 0
        (some allNoneF)) [] = some none ∧
      callResult (runWithContextGo (some (ParentCtx.alreadyDone (Err.user 9))) 2 0
        (some allNoneF)) [] ≠ some (some (Err.user 9))) :=
  ⟨by norm_num,
    c8_zero_precedes_done 2 allNoneF (Err.user 9) [] (by norm_num)⟩

theorem c10_int32_cursor_witness :
    (initConfig 2).cursor = wrap32 ((2 : Int) - 1) ∧
    (step ⟨5, allNoneF, ParentCtx.background⟩
        { initConfig 1 with workers := [WStatus.next] } (Label.claim 0)).cursor
      = wrap32 ({ initConfig 1 with workers := [WStatus.next] }.cursor + 1) ∧
    (killStep ⟨5, allNoneF, ParentCtx.background⟩ (initConfig 1) 0 0
        (Err.user 1)).cursor = wrap32 ((5 : Int)) ∧
    ((2 : Int) ^ 31 ≤ 2 ^ 31 ∧
      ¬ DispatchSafe ⟨2 ^ 31, allNoneF, ParentCtx.background⟩ (initConfig 1)) :=
  ⟨c10_int32_cursor.1 2,
    c10_int32_cursor.2.1 ⟨5, allNoneF, ParentCtx.background⟩
      { initConfig 1 with workers := [WStatus.next] } 0 (by decide),
    c10_int32_cursor.2.2.1 ⟨5, allNoneF, ParentCtx.background⟩ (initConfig 1) 0 0
      (Err.user 1) (by decide),
    le_refl _,
    c10_int32_cursor.2.2.2 (2 ^ 31) (le_refl _)⟩
